import Mathlib

/-!
# Shallow embedding of the automata core (models/ and algorithms/)

This file translates the data model (`models/state.py`, `models/alphabet.py`,
`models/transition.py`, `models/automaton.py`) and the algorithm modules
(`algorithms/deterministic.py`, `algorithms/conversion.py`,
`algorithms/completion.py`, `algorithms/minimization.py`,
`algorithms/language_ops.py`) into Lean, and proves the claims about them.

Modelling conventions:
* Python sets are modelled as insertion-ordered duplicate-free lists; the
  operations below maintain that invariant exactly as the source does.
* Python `State.__eq__` compares names only, and `Transition.__eq__` compares
  the name/symbol/name triple; the Boolean relations `stEq` / `trEq` below
  are used wherever the source uses `==`, `in`, or keys a set or dict.
* Worklist loops are given explicit fuel and return `none` when it runs out;
  the default fuel of each public entry point is an over-approximation of the
  source loop's iteration count, so `none` also models a crash such as the
  `KeyError` / `StopIteration` paths that well-formed inputs never reach.
-/

namespace AM

/-- The sentinel from `Alphabet.epsilon` in `models/alphabet.py`; it marks a
silent transition and is kept out of the symbol set by `add_symbol`. -/
def epsilon : String := "ε"

/-- `models/state.py State`: a name plus the two Boolean flags. -/
structure State where
  name : String
  is_initial : Bool
  is_final : Bool
deriving DecidableEq, Repr

/-- Python `State.__eq__` / `__hash__`: states are compared by name only. -/
def stEq (a b : State) : Bool := a.name == b.name

/-- Python `x in <collection of states>` membership under name equality. -/
def memSt (l : List State) (x : State) : Bool := l.any (fun y => stEq y x)

/-- `models/transition.py Transition`: source object, symbol, target object.
The Python objects are kept as full records, as the source stores them. -/
structure Transition where
  source : State
  symbol : String
  target : State
deriving DecidableEq, Repr

/-- Python `Transition.__eq__`: structural on all three fields, with state
equality being name equality. -/
def trEq (a b : Transition) : Bool :=
  stEq a.source b.source && a.symbol == b.symbol && stEq a.target b.target

/-- Python `t in <list of transitions>` membership under `trEq`. -/
def memTr (l : List Transition) (x : Transition) : Bool := l.any (fun y => trEq y x)

/-- `models/alphabet.py Alphabet`: the symbol set, as an insertion-ordered
duplicate-free list. -/
structure Alphabet where
  symbols : List String
deriving DecidableEq, Repr

/-- `Alphabet.add_symbol`: insert the symbol unless it is the epsilon
sentinel; the underlying Python `set.add` ignores duplicates. -/
def Alphabet.add_symbol (al : Alphabet) (s : String) : Alphabet :=
  if s == epsilon then al
  else if al.symbols.contains s then al else ⟨al.symbols ++ [s]⟩

/-- The `set(symbols)` copy performed by `Alphabet.__init__`: deduplicate,
keeping first occurrences. The constructor does not filter epsilon. -/
def pyDedup : List String → List String :=
  go []
where
  go (seen : List String) : List String → List String
    | [] => []
    | x :: xs => if seen.contains x then go seen xs else x :: go (seen ++ [x]) xs

/-- The `set(states)` copy used for closures and partitions: deduplicate by
name, keeping first occurrences. -/
def pyDedupSt (l : List State) : List State :=
  l.foldl (fun acc s => if memSt acc s then acc else acc ++ [s]) []

/-- `models/automaton.py Automaton`: name, alphabet, ordered state list,
ordered transition list. -/
structure Automaton where
  name : String
  alphabet : Alphabet
  states : List State
  transitions : List Transition
deriving DecidableEq, Repr

namespace Automaton

/-- `Automaton.initial_states`. -/
def initial_states (A : Automaton) : List State := A.states.filter (·.is_initial)

/-- `Automaton.final_states`. -/
def final_states (A : Automaton) : List State := A.states.filter (·.is_final)

/-- `Automaton.get_state_by_name`: first state with the given name, `none`
for Python's `None`. -/
def get_state_by_name (A : Automaton) (n : String) : Option State :=
  A.states.find? (fun s => s.name == n)

/-- `Automaton.add_state`: append unless a state of the same name exists
(the duplicate add is silently ignored). -/
def add_state (A : Automaton) (s : State) : Automaton :=
  match A.get_state_by_name s.name with
  | some _ => A
  | none => { A with states := A.states ++ [s] }

/-- `Automaton.add_transition`, at the internal call sites where both
endpoints are already state objects: add missing endpoint states, grow the
alphabet when the symbol is not epsilon, and append the transition unless an
equal one is present. -/
def add_transition (A : Automaton) (src : State) (sym : String) (tgt : State) : Automaton :=
  let A1 := if memSt A.states src then A else A.add_state src
  let A2 := if memSt A1.states tgt then A1 else A1.add_state tgt
  let A3 := { A2 with alphabet := A2.alphabet.add_symbol sym }
  let t : Transition := ⟨src, sym, tgt⟩
  if memTr A3.transitions t then A3 else { A3 with transitions := A3.transitions ++ [t] }

/-- `Automaton.get_transitions_from` with a symbol filter. -/
def get_transitions_from (A : Automaton) (s : State) (sym : String) : List Transition :=
  A.transitions.filter (fun t => stEq t.source s && t.symbol == sym)

/-- `Automaton.get_transitions_from` with `symbol=None`: all symbols. -/
def transitions_from_any (A : Automaton) (s : State) : List Transition :=
  A.transitions.filter (fun t => stEq t.source s)

/-- `Automaton.get_reachable_states`. -/
def get_reachable_states (A : Automaton) (s : State) (sym : String) : List State :=
  (A.get_transitions_from s sym).map (·.target)

/-- `Automaton.remove_state`, called with a state object: drop the first
name-equal state and every transition incident (by name) to it. -/
def remove_state (A : Automaton) (s : State) : Automaton :=
  if memSt A.states s then
    { A with
      states := removeFirstSt A.states s,
      transitions := A.transitions.filter (fun t => !(stEq t.source s) && !(stEq t.target s)) }
  else A
where
  removeFirstSt : List State → State → List State
    | [], _ => []
    | x :: xs, y => if stEq x y then xs else x :: removeFirstSt xs y

/-- `Automaton.copy`: rebuild the alphabet, states and transitions through
the mutating primitives, in source order. A transition whose endpoints do
not resolve by name would crash the source with an attribute error; such a
transition is skipped here, and `wf` below rules the situation out. -/
def copy (A : Automaton) : Automaton :=
  let base : Automaton := ⟨A.name, ⟨[]⟩, [], []⟩
  let a1 := A.alphabet.symbols.foldl (fun acc s => { acc with alphabet := acc.alphabet.add_symbol s }) base
  let a2 := A.states.foldl (fun acc s => acc.add_state ⟨s.name, s.is_initial, s.is_final⟩) a1
  A.transitions.foldl (fun acc t =>
    match acc.get_state_by_name t.source.name, acc.get_state_by_name t.target.name with
    | some src, some tgt => acc.add_transition src t.symbol tgt
    | _, _ => acc) a2

end Automaton

end AM

namespace DeterministicOperations

/-- `algorithms/deterministic.py is_deterministic`: exactly one initial
state, no epsilon transition, and at most one transition per state and
alphabet symbol. -/
def is_deterministic (A : AM.Automaton) : Bool :=
  (A.initial_states.length == 1) &&
  !(A.transitions.any (fun t => t.symbol == AM.epsilon)) &&
  (A.states.all (fun s => A.alphabet.symbols.all (fun c =>
    !(decide (1 < (A.get_reachable_states s c).length)))))

/-- `algorithms/deterministic.py is_complete`. -/
def is_complete (A : AM.Automaton) : Bool :=
  is_deterministic A &&
  A.states.all (fun s => A.alphabet.symbols.all (fun c =>
    !(A.get_reachable_states s c).isEmpty))

end DeterministicOperations

/-- A character-list comparison implementing Python's lexicographic string
order on code points, used by `sorted(...)`. -/
def chLe : List Char → List Char → Bool
  | [], _ => true
  | _ :: _, [] => false
  | a :: as, b :: bs => if a = b then chLe as bs else decide (a < b)

/-- Python `s1 <= s2` on strings. -/
def strLe (s t : String) : Bool := chLe s.data t.data

/-- Stable insertion into a sorted list, ascending under `strLe`. -/
def insSorted (x : String) : List String → List String
  | [] => [x]
  | y :: ys => if strLe x y then x :: y :: ys else y :: insSorted x ys

/-- Python `sorted(...)` on strings (insertion sort; same output as the
source's sort for any input). -/
def sortStrs (l : List String) : List String := l.foldr insSorted []

/-- Python `"_".join(names)`. -/
def joinNames : List String → String
  | [] => ""
  | [x] => x
  | x :: xs => x ++ "_" ++ joinNames xs

namespace ConversionOperations

/-- One pop of the `epsilon_closure` worklist: walk the epsilon transitions
out of `s` and append yet-unseen targets to both closure and worklist. -/
def closureStep (A : AM.Automaton) (s : AM.State) (closure worklist : List AM.State) :
    List AM.State × List AM.State :=
  (A.get_transitions_from s AM.epsilon).foldl
    (fun acc t =>
      if AM.memSt acc.1 t.target then acc else (acc.1 ++ [t.target], acc.2 ++ [t.target]))
    (closure, worklist)

/-- The `while worklist:` loop of `epsilon_closure`, with explicit fuel. -/
def closureLoop (A : AM.Automaton) (fuel : Nat) (closure worklist : List AM.State) :
    Option (List AM.State) :=
  match worklist with
  | [] => some closure
  | s :: rest =>
    match fuel with
    | 0 => none
    | fuel' + 1 =>
      let p := closureStep A s closure rest
      closureLoop A fuel' p.1 p.2

/-- `algorithms/conversion.py epsilon_closure`: closure starts as the
name-deduplicated input set, the worklist as the full input list. The
default fuel always suffices (`closureLoop_isSome`). -/
def epsilon_closure (A : AM.Automaton) (states : List AM.State) : Option (List AM.State) :=
  closureLoop A (states.length + A.transitions.length + 1) (AM.pyDedupSt states) states

/-- The per-symbol successor-set computation shared by the subset
construction and by `accepts_word`'s nondeterministic branch: union, over
the subset's states and their `sym` transitions, of the epsilon closure of
each target, keeping first-insertion order. -/
def moveClosure (A : AM.Automaton) (sub : List AM.State) (sym : String) :
    Option (List AM.State) :=
  sub.foldlM (fun acc s =>
    (A.get_transitions_from s sym).foldlM (fun acc2 t =>
      (epsilon_closure A [t.target]).map (fun cl =>
        cl.foldl (fun acc3 x => if AM.memSt acc3 x then acc3 else acc3 ++ [x]) acc2)) acc) []

/-- The canonical key of a subset of NFA states, standing for the Python
`frozenset`: the sorted list of member names. -/
def subsetKey (l : List AM.State) : List String := sortStrs (l.map (·.name))

/-- `"_".join(sorted(names)) or "empty"` from `nfa_to_dfa`. -/
def subsetName (l : List AM.State) : String :=
  let j := joinNames (subsetKey l)
  if j == "" then "empty" else j

/-- The body of `nfa_to_dfa`'s `for symbol in automaton.alphabet.symbols`
loop. Note the source adds the DFA transition only inside the
`if next_states_frozen not in state_map` branch, which this mirrors. -/
def subsetSymStep (A : AM.Automaton) (cur : AM.State) (sub : List AM.State)
    (st : AM.Automaton × List (List String × AM.State) × List (List String × List AM.State))
    (sym : String) :
    Option (AM.Automaton × List (List String × AM.State) × List (List String × List AM.State)) :=
  match moveClosure A sub sym with
  | none => none
  | some next =>
    if next.isEmpty then some st
    else
      let key := subsetKey next
      match st.2.1.lookup key with
      | some _ => some st
      | none =>
        let nst : AM.State := ⟨subsetName next, false, next.any (·.is_final)⟩
        let dfa2 := st.1.add_state nst
        let smap2 := st.2.1 ++ [(key, nst)]
        let queue2 := st.2.2 ++ [(key, next)]
        let dfa3 := dfa2.add_transition cur sym nst
        some (dfa3, smap2, queue2)

/-- The `while queue:` loop of `nfa_to_dfa`, with explicit fuel. -/
def subsetLoop (A : AM.Automaton) (fuel : Nat) (dfa : AM.Automaton)
    (smap : List (List String × AM.State))
    (queue : List (List String × List AM.State))
    (processed : List (List String)) : Option AM.Automaton :=
  match queue with
  | [] => some dfa
  | (key, sub) :: rest =>
    match fuel with
    | 0 => none
    | fuel' + 1 =>
      if processed.contains key then subsetLoop A fuel' dfa smap rest processed
      else
        match smap.lookup key with
        | none => none
        | some cur =>
          match A.alphabet.symbols.foldlM (subsetSymStep A cur sub) (dfa, smap, rest) with
          | none => none
          | some (dfa2, smap2, q2) => subsetLoop A fuel' dfa2 smap2 q2 (processed ++ [key])

/-- `algorithms/conversion.py nfa_to_dfa`: return a copy when the input is
already deterministic, otherwise run the subset construction. -/
def nfa_to_dfa (A : AM.Automaton) : Option AM.Automaton :=
  if DeterministicOperations.is_deterministic A then some A.copy
  else
    match epsilon_closure A A.initial_states with
    | none => none
    | some initial_closure =>
      let initSt : AM.State := ⟨subsetName initial_closure, true, initial_closure.any (·.is_final)⟩
      let dfa0 : AM.Automaton := ⟨A.name ++ "_DFA", ⟨AM.pyDedup A.alphabet.symbols⟩, [], []⟩
      let dfa1 := dfa0.add_state initSt
      subsetLoop A (2 ^ (A.states.length + A.transitions.length) + 2) dfa1
        [(subsetKey initial_closure, initSt)] [(subsetKey initial_closure, initial_closure)] []

end ConversionOperations

namespace DeterministicOperations

/-- The `for state in result.states: for symbol in ...` fill loop shared
verbatim by both completion implementations: add a transition to the sink
for every pair that lacks one, against the evolving transition list. -/
def fillMissing (R : AM.Automaton) (sink : AM.State) : AM.Automaton :=
  R.states.foldl (fun acc s =>
    R.alphabet.symbols.foldl (fun acc2 c =>
      if (acc2.get_reachable_states s c).isEmpty then acc2.add_transition s c sink else acc2)
      acc) R

/-- The sink self-loop loop shared by both completion implementations. -/
def addLoops (R : AM.Automaton) (sink : AM.State) : AM.Automaton :=
  R.alphabet.symbols.foldl (fun acc c => acc.add_transition sink c sink) R

/-- `algorithms/deterministic.py complete_automaton`. -/
def complete_automaton (A : AM.Automaton) : Option AM.Automaton :=
  let result0 := { A.copy with name := A.name ++ "_completed" }
  let conv : Option AM.Automaton :=
    if is_deterministic result0 then some result0
    else ConversionOperations.nfa_to_dfa result0
  match conv with
  | none => none
  | some result =>
    if is_complete result then some result
    else
      let sink : AM.State := ⟨"sink", false, false⟩
      let r1 := result.add_state sink
      some (addLoops (fillMissing r1 sink) sink)

end DeterministicOperations

namespace CompletionOperations

/-- `algorithms/completion.py is_complete` (a verbatim duplicate of the
deterministic module's check). -/
def is_complete (A : AM.Automaton) : Bool :=
  DeterministicOperations.is_deterministic A &&
  A.states.all (fun s => A.alphabet.symbols.all (fun c =>
    !(A.get_reachable_states s c).isEmpty))

/-- `algorithms/completion.py complete_automaton`. -/
def complete_automaton (A : AM.Automaton) : Option AM.Automaton :=
  let conv : Option AM.Automaton :=
    if DeterministicOperations.is_deterministic A then some A.copy
    else ConversionOperations.nfa_to_dfa A
  match conv with
  | none => none
  | some dfa =>
    if is_complete dfa then some dfa
    else
      let result0 := { dfa.copy with name := dfa.name ++ "_complete" }
      let sink : AM.State := ⟨"sink", false, false⟩
      let r1 := result0.add_state sink
      some (DeterministicOperations.addLoops (DeterministicOperations.fillMissing r1 sink) sink)

end CompletionOperations

namespace MinimizationOperations

/-- The BFS of `remove_unreachable_states`, with explicit fuel. A popped
state already reached is skipped; otherwise it is added and the targets of
all its outgoing transitions that are not yet reached are enqueued. -/
def bfsLoop (A : AM.Automaton) (fuel : Nat) (reachable queue : List AM.State) :
    Option (List AM.State) :=
  match queue with
  | [] => some reachable
  | s :: rest =>
    match fuel with
    | 0 => none
    | fuel' + 1 =>
      if AM.memSt reachable s then bfsLoop A fuel' reachable rest
      else
        let reachable2 := reachable ++ [s]
        let pushes := ((A.transitions_from_any s).filter
          (fun t => !(AM.memSt reachable2 t.target))).map (·.target)
        bfsLoop A fuel' reachable2 (rest ++ pushes)

/-- `algorithms/minimization.py remove_unreachable_states`. -/
def remove_unreachable_states (A : AM.Automaton) : Option AM.Automaton :=
  let result := A.copy
  match bfsLoop result (result.states.length + result.transitions.length + 1)
      [] result.initial_states with
  | none => none
  | some reachable =>
    some (result.states.foldl
      (fun acc s => if AM.memSt reachable s then acc else acc.remove_state s) result)

/-- `X = {states with a transition into blk on sym}` from `minimize`'s
refinement loop (membership in the splitter block is by name). -/
def splitterX (B : AM.Automaton) (blk : List AM.State) (sym : String) : List AM.State :=
  B.states.filter (fun s => (B.get_reachable_states s sym).any (fun t => AM.memSt blk t))

/-- `list.remove` on the worklist of partition blocks. -/
def removeFirstBlk : List (List AM.State) → List AM.State → List (List AM.State)
  | [], _ => []
  | x :: xs, y => if x == y then xs else x :: removeFirstBlk xs y

/-- One block `Y` of `minimize`'s refinement under a fixed splitter-set `X`:
split `Y` by `X`, and update the worklist exactly as the source does
(replace `Y` by both halves when it was queued, otherwise queue the
smaller half). -/
def refineStep (X : List AM.State)
    (acc : List (List AM.State) × List (List AM.State)) (Y : List AM.State) :
    List (List AM.State) × List (List AM.State) :=
  let Yi := Y.filter (fun s => AM.memSt X s)
  let Yd := Y.filter (fun s => !(AM.memSt X s))
  if !Yi.isEmpty && !Yd.isEmpty then
    let wl2 :=
      if acc.2.contains Y then removeFirstBlk acc.2 Y ++ [Yi, Yd]
      else if Yi.length ≤ Yd.length then acc.2 ++ [Yi] else acc.2 ++ [Yd]
    (acc.1 ++ [Yi, Yd], wl2)
  else (acc.1 ++ [Y], acc.2)

/-- One symbol of `minimize`'s refinement: split every partition block by
`X = splitterX B Ablk sym`. -/
def refineBySym (B : AM.Automaton) (Ablk : List AM.State)
    (pw : List (List AM.State) × List (List AM.State)) (sym : String) :
    List (List AM.State) × List (List AM.State) :=
  pw.1.foldl (refineStep (splitterX B Ablk sym)) ([], pw.2)

/-- The `while worklist:` refinement loop of `minimize`, with explicit fuel. -/
def partitionLoop (B : AM.Automaton) (fuel : Nat)
    (partitionL worklist : List (List AM.State)) : Option (List (List AM.State)) :=
  match worklist with
  | [] => some partitionL
  | Ablk :: rest =>
    match fuel with
    | 0 => none
    | fuel' + 1 =>
      let pw := B.alphabet.symbols.foldl (refineBySym B Ablk) (partitionL, rest)
      partitionLoop B fuel' pw.1 pw.2

/-- Dict lookup keyed by a partition block (`class_to_state[frozenset(...)]`). -/
def lookupBlk : List (List AM.State × AM.State) → List AM.State → Option AM.State
  | [], _ => none
  | (k, v) :: rest, key => if k == key then some v else lookupBlk rest key

/-- The construction of the minimized automaton from the final partition:
one state per class named after its first member, initial or final when any
member is; transitions follow the first member's unique transition per
symbol into the class containing its target. An empty class would crash the
source's `next(iter(...))` and yields `none` here. -/
def buildMinimized (B : AM.Automaton) (part : List (List AM.State)) : Option AM.Automaton :=
  let m0 : AM.Automaton := ⟨B.name ++ "_min", B.alphabet, [], []⟩
  match part.foldlM (fun (acc : AM.Automaton × List (List AM.State × AM.State)) blk =>
      match blk with
      | [] => none
      | rep :: _ =>
        let nst : AM.State := ⟨rep.name, blk.any (·.is_initial), blk.any (·.is_final)⟩
        some (acc.1.add_state nst, acc.2 ++ [(blk, nst)])) ((m0, []) :
        AM.Automaton × List (List AM.State × AM.State)) with
  | none => none
  | some (m1, cmap) =>
    cmap.foldlM (fun acc pair =>
      match pair.1 with
      | [] => none
      | rep :: _ =>
        some (B.alphabet.symbols.foldl (fun acc2 sym =>
          match (B.get_reachable_states rep sym).head? with
          | none => acc2
          | some tgt =>
            match part.find? (fun blk => AM.memSt blk tgt) with
            | none => acc2
            | some tblk =>
              match lookupBlk cmap tblk with
              | none => acc2
              | some tst => acc2.add_transition pair.2 sym tst) acc)) m1

/-- `algorithms/minimization.py minimize`: normalize to a complete DFA,
prune unreachable states, refine the final/non-final partition to a fixed
point, and build the quotient automaton. -/
def minimize (A : AM.Automaton) : Option AM.Automaton :=
  let step1 : Option AM.Automaton :=
    if DeterministicOperations.is_deterministic A then some A
    else ConversionOperations.nfa_to_dfa A
  match step1 with
  | none => none
  | some a1 =>
    let step2 : Option AM.Automaton :=
      if DeterministicOperations.is_complete a1 then some a1
      else DeterministicOperations.complete_automaton a1
    match step2 with
    | none => none
    | some a2 =>
      match remove_unreachable_states a2 with
      | none => none
      | some B =>
        let fs := B.final_states
        let nfs := B.states.filter (fun s => !(AM.memSt fs s))
        let partition0 := (if fs.isEmpty then [] else [fs]) ++
          (if nfs.isEmpty then [] else [nfs])
        match partitionLoop B (2 * B.states.length + 4) partition0 partition0 with
        | none => none
        | some part => buildMinimized B part

end MinimizationOperations

namespace LanguageOperations

/-- The deterministic branch of `accepts_word`: follow the unique
transition per character, rejecting on unknown symbols and missing
transitions; accept when the last state is final. -/
def detRun (A : AM.Automaton) : List Char → AM.State → Bool
  | [], cur => cur.is_final
  | c :: cs, cur =>
    let sym := String.singleton c
    if !(A.alphabet.symbols.contains sym) then false
    else
      match A.get_reachable_states cur sym with
      | [] => false
      | nxt :: _ => detRun A cs nxt

/-- The nondeterministic branch of `accepts_word`: carry the epsilon-closed
set of current states, rejecting on unknown symbols and on an empty set;
accept when some final state remains. -/
def nfaRun (A : AM.Automaton) : List Char → List AM.State → Option Bool
  | [], cur => some (cur.any (·.is_final))
  | c :: cs, cur =>
    let sym := String.singleton c
    if !(A.alphabet.symbols.contains sym) then some false
    else
      match ConversionOperations.moveClosure A cur sym with
      | none => none
      | some next => if next.isEmpty then some false else nfaRun A cs next

/-- `algorithms/language_ops.py accepts_word`. Python iterates the word
character by character, so a word is a `String` consumed per `Char`. -/
def accepts_word (A : AM.Automaton) (w : String) : Option Bool :=
  if DeterministicOperations.is_deterministic A then
    match A.initial_states with
    | [] => none
    | cur0 :: _ => some (detRun A w.data cur0)
  else
    match ConversionOperations.epsilon_closure A A.initial_states with
    | none => none
    | some cl0 => nfaRun A w.data cl0

/-- `algorithms/language_ops.py _generate_words_of_length`: every word of
the given length over the sorted alphabet, in lexicographic order. -/
def generate_words_of_length (alpha : List String) : Nat → List String
  | 0 => [""]
  | n + 1 =>
    (generate_words_of_length alpha n).foldl (fun acc w =>
      acc ++ (sortStrs alpha).map (fun s => w ++ s)) []

/-- `algorithms/language_ops.py generate_words`: enumerate all words up to
the bound over the (converted) DFA's alphabet and keep those whose
acceptance matches `accepted`. -/
def generate_words (A : AM.Automaton) (max_length : Nat) (accepted : Bool) :
    Option (List String) :=
  let dfaO : Option AM.Automaton :=
    if !(DeterministicOperations.is_deterministic A) then ConversionOperations.nfa_to_dfa A
    else some A
  match dfaO with
  | none => none
  | some dfa =>
    let all_words := (List.range (max_length + 1)).foldl
      (fun acc n => acc ++ generate_words_of_length dfa.alphabet.symbols n) []
    all_words.foldlM (fun acc w =>
      match accepts_word dfa w with
      | none => none
      | some b => some (if b == accepted then acc ++ [w] else acc)) []

/-- The per-symbol checks of `are_equivalent`'s pairing BFS. `Sum.inl b`
models the source's early `return b`; `Sum.inr` carries the updated map and
queue. -/
def eqvSyms (m1 m2 : AM.Automaton) (s1 s2 : AM.State) :
    List String → List (String × AM.State) → List (AM.State × AM.State) →
    Sum Bool (List (String × AM.State) × List (AM.State × AM.State))
  | [], smap, queue => Sum.inr (smap, queue)
  | sym :: rest, smap, queue =>
    let n1 := m1.get_reachable_states s1 sym
    let n2 := m2.get_reachable_states s2 sym
    if n1.length != 1 || n2.length != 1 then Sum.inl false
    else
      match n1, n2 with
      | t1 :: _, t2 :: _ =>
        match smap.lookup t1.name with
        | some v =>
          if v.name != t2.name then Sum.inl false
          else eqvSyms m1 m2 s1 s2 rest smap queue
        | none => eqvSyms m1 m2 s1 s2 rest (smap ++ [(t1.name, t2)]) (queue ++ [(t1, t2)])
      | _, _ => Sum.inl false

/-- The pairing BFS of `are_equivalent`, with explicit fuel: visited pairs
are skipped, a final-flag mismatch rejects, and at the end every state of
the first minimal DFA must have been mapped. -/
def eqvBFS (m1 m2 : AM.Automaton) (fuel : Nat) (smap : List (String × AM.State))
    (queue : List (AM.State × AM.State)) (visited : List (String × String)) :
    Option Bool :=
  match queue with
  | [] => some (smap.length == m1.states.length)
  | (s1, s2) :: rest =>
    match fuel with
    | 0 => none
    | fuel' + 1 =>
      if visited.contains (s1.name, s2.name) then eqvBFS m1 m2 fuel' smap rest visited
      else
        let visited2 := visited ++ [(s1.name, s2.name)]
        if s1.is_final != s2.is_final then some false
        else
          match eqvSyms m1 m2 s1 s2 m1.alphabet.symbols smap rest with
          | Sum.inl b => some b
          | Sum.inr (smap2, q2) => eqvBFS m1 m2 fuel' smap2 q2 visited2

/-- `algorithms/language_ops.py are_equivalent`: minimize both converted
DFAs, compare state and final-state counts, then attempt the structural
bijection by BFS from the paired initial states. -/
def are_equivalent (A1 A2 : AM.Automaton) : Option Bool :=
  match ConversionOperations.nfa_to_dfa A1, ConversionOperations.nfa_to_dfa A2 with
  | some dfa1, some dfa2 =>
    match MinimizationOperations.minimize dfa1, MinimizationOperations.minimize dfa2 with
    | some m1, some m2 =>
      if m1.states.length != m2.states.length then some false
      else if m1.final_states.length != m2.final_states.length then some false
      else
        match m1.initial_states, m2.initial_states with
        | [i1], [i2] =>
          eqvBFS m1 m2 (m1.states.length + m2.states.length + 2)
            [(i1.name, i2)] [(i1, i2)] []
        | _, _ => some false
    | _, _ => none
  | _, _ => none

/-- The `state.is_final = not state.is_final` pass of `complement`. The
Python loop mutates the shared state objects, so transition endpoints whose
name belongs to the state list flip with them; an endpoint whose name does
not resolve to a listed state keeps its flag, as its object is never
visited by the loop. -/
def flipFinals (A : AM.Automaton) : AM.Automaton :=
  let names := A.states.map (·.name)
  let fl := fun (s : AM.State) =>
    if names.contains s.name then { s with is_final := !s.is_final } else s
  { A with
    states := A.states.map (fun s => { s with is_final := !s.is_final }),
    transitions := A.transitions.map (fun t => { t with source := fl t.source, target := fl t.target }) }

/-- `algorithms/language_ops.py complement`: normalize to a complete DFA,
copy, rename after the original input, and flip every final flag. -/
def complement (A : AM.Automaton) : Option AM.Automaton :=
  let dfaO : Option AM.Automaton :=
    if !(DeterministicOperations.is_deterministic A) then ConversionOperations.nfa_to_dfa A
    else some A.copy
  match dfaO with
  | none => none
  | some dfa1 =>
    let dfaO2 : Option AM.Automaton :=
      if !(DeterministicOperations.is_complete dfa1) then
        DeterministicOperations.complete_automaton dfa1
      else some dfa1
    match dfaO2 with
    | none => none
    | some dfa2 => some (flipFinals { dfa2.copy with name := A.name ++ "_complement" })

end LanguageOperations

namespace Claims

/-- The two-state NFA `q0 --a--> q0`, `q0 --a--> q1` (`q1` final) used to
exhibit the missing-transition slip in `nfa_to_dfa`. -/
def ceQ0 : AM.State := ⟨"q0", true, false⟩

/-- Final state of `ceNFA`. -/
def ceQ1 : AM.State := ⟨"q1", false, true⟩

/-- NFA over `{a}` accepting `a a*`: nondeterministic on `a` from `q0`. -/
def ceNFA : AM.Automaton :=
  ⟨"N", ⟨["a"]⟩, [ceQ0, ceQ1], [⟨ceQ0, "a", ceQ0⟩, ⟨ceQ0, "a", ceQ1⟩]⟩

/-- Initial and final state of `c3A`. -/
def c3q0 : AM.State := ⟨"q0", true, true⟩

/-- Final state of `c3A`. -/
def c3r : AM.State := ⟨"r", false, true⟩

/-- Non-final state of `c3A`. -/
def c3r2 : AM.State := ⟨"r2", false, false⟩

/-- A deterministic automaton whose transition list carries a symbol `c`
that is absent from its declared alphabet (the constructor permits this;
`copy` then widens the alphabet). -/
def c3A : AM.Automaton :=
  ⟨"A", ⟨["a"]⟩, [c3q0, c3r, c3r2],
    [⟨c3q0, "a", c3q0⟩, ⟨c3r, "a", c3r⟩, ⟨c3r2, "a", c3r2⟩,
     ⟨c3q0, "c", c3r⟩, ⟨c3q0, "c", c3r2⟩]⟩

/-- Initial state of `c10A`. -/
def c10i : AM.State := ⟨"i", true, false⟩

/-- A state whose name collides with the joined name of `{x, y}`. -/
def c10xy : AM.State := ⟨"x_y", false, false⟩

/-- State `x` of `c10A`. -/
def c10x : AM.State := ⟨"x", false, false⟩

/-- State `y` of `c10A`. -/
def c10y : AM.State := ⟨"y", false, false⟩

/-- State `p` of `c10A`. -/
def c10p : AM.State := ⟨"p", false, false⟩

/-- State `q` of `c10A`. -/
def c10q : AM.State := ⟨"q", false, false⟩

/-- An NFA on which the subset construction produces two distinct subsets,
`{x_y}` and `{x, y}`, whose sorted-join names are both `"x_y"`. -/
def c10A : AM.Automaton :=
  ⟨"U", ⟨["a", "b"]⟩, [c10i, c10xy, c10x, c10y, c10p, c10q],
    [⟨c10i, "a", c10xy⟩, ⟨c10i, "b", c10x⟩, ⟨c10i, "b", c10y⟩,
     ⟨c10xy, "a", c10p⟩, ⟨c10x, "a", c10q⟩]⟩

/-- Initial and final state of `evenOnesDfa`. -/
def evenSt : AM.State := ⟨"q_even", true, true⟩

/-- Odd-parity state of `evenOnesDfa`. -/
def oddSt : AM.State := ⟨"q_odd", false, false⟩

/-- The two-state DFA over `{0, 1}` accepting exactly the strings with an
even number of `1`s. -/
def evenOnesDfa : AM.Automaton :=
  ⟨"E", ⟨["0", "1"]⟩, [evenSt, oddSt],
    [⟨evenSt, "0", evenSt⟩, ⟨evenSt, "1", oddSt⟩,
     ⟨oddSt, "0", oddSt⟩, ⟨oddSt, "1", evenSt⟩]⟩

/-- Initial state of `c5A`. -/
def c5q0 : AM.State := ⟨"q0", true, false⟩

/-- A pre-existing *final* state already named `sink`. -/
def c5sink : AM.State := ⟨"sink", false, true⟩

/-- A deterministic, incomplete automaton that already owns a state named
`sink`, colliding with the completion sink's reserved name. -/
def c5A : AM.Automaton := ⟨"S", ⟨["a"]⟩, [c5q0, c5sink], [⟨c5q0, "a", c5q0⟩]⟩

/-- Sole state of `c6A`. -/
def c6q0 : AM.State := ⟨"q0", true, false⟩

/-- The simplest deterministic, incomplete automaton: one initial state
over `{a}` with no transitions. -/
def c6A : AM.Automaton := ⟨"M", ⟨["a"]⟩, [c6q0], []⟩

/-- A stateless automaton over `{a}`: the degenerate input used to witness
the safety claim for `complement` and `minimize`. -/
def c9A : AM.Automaton := ⟨"E", ⟨["a"]⟩, [], []⟩

end Claims

/-! ## Well-formedness

The data-model invariants that automata built through the source's mutating
API (`add_state` / `add_transition` / `remove_state` / `from_dict`) always
enjoy: unique state names, a duplicate-free epsilon-free symbol set,
transition endpoints that resolve by name to their own records, transition
symbols drawn from the alphabet (or epsilon), and no duplicate transitions.
The raw constructor can violate each of them. -/

/-- Duplicate-freedom of a list of strings. -/
def strNodup : List String → Bool
  | [] => true
  | x :: xs => !(xs.contains x) && strNodup xs

/-- Sum of the block sizes of a partition. -/
def blocksLen (P : List (List AM.State)) : Nat := (P.map (·.length)).sum

/-- Duplicate-freedom of a transition list under the source's `trEq`. -/
def trAllDistinct : List AM.Transition → Bool
  | [] => true
  | t :: ts => !(AM.memTr ts t) && trAllDistinct ts

/-- Data-model well-formedness of an automaton value. -/
def wf (A : AM.Automaton) : Bool :=
  strNodup (A.states.map (·.name)) &&
  strNodup A.alphabet.symbols &&
  !(A.alphabet.symbols.contains AM.epsilon) &&
  A.transitions.all (fun t =>
    (A.get_state_by_name t.source.name == some t.source) &&
    (A.get_state_by_name t.target.name == some t.target) &&
    (A.alphabet.symbols.contains t.symbol || t.symbol == AM.epsilon)) &&
  trAllDistinct A.transitions

/-! ## Basic lemmas about the embedded primitives -/

theorem stEq_iff (a b : AM.State) : AM.stEq a b = true ↔ a.name = b.name := by
  simp [AM.stEq]

theorem memSt_iff (l : List AM.State) (x : AM.State) :
    AM.memSt l x = true ↔ ∃ y ∈ l, y.name = x.name := by
  simp [AM.memSt, List.any_eq_true, stEq_iff]

theorem memSt_append (l1 l2 : List AM.State) (x : AM.State) :
    AM.memSt (l1 ++ l2) x = (AM.memSt l1 x || AM.memSt l2 x) := by
  simp [AM.memSt, List.any_append]

theorem memSt_self (l : List AM.State) (x : AM.State) (h : x ∈ l) :
    AM.memSt l x = true := by
  exact (memSt_iff l x).mpr ⟨x, h, rfl⟩

theorem trEq_iff (a b : AM.Transition) :
    AM.trEq a b = true ↔
      a.source.name = b.source.name ∧ a.symbol = b.symbol ∧ a.target.name = b.target.name := by
  simp [AM.trEq, AM.stEq, Bool.and_assoc]

theorem trEq_comm (a b : AM.Transition) : AM.trEq a b = AM.trEq b a := by
  rcases hb : AM.trEq b a with _ | _
  · rcases ha : AM.trEq a b with _ | _
    · rfl
    · rw [trEq_iff] at ha
      rw [Bool.eq_false_iff] at hb
      exact absurd ((trEq_iff b a).mpr ⟨ha.1.symm, ha.2.1.symm, ha.2.2.symm⟩) hb
  · rw [trEq_iff] at hb
    exact (trEq_iff a b).mpr ⟨hb.1.symm, hb.2.1.symm, hb.2.2.symm⟩

theorem memTr_iff (l : List AM.Transition) (x : AM.Transition) :
    AM.memTr l x = true ↔ ∃ y ∈ l, AM.trEq y x = true := by
  simp [AM.memTr, List.any_eq_true]

theorem memTr_append (l1 l2 : List AM.Transition) (x : AM.Transition) :
    AM.memTr (l1 ++ l2) x = (AM.memTr l1 x || AM.memTr l2 x) := by
  simp [AM.memTr, List.any_append]

theorem strNodup_iff (l : List String) : strNodup l = true ↔ l.Nodup := by
  induction l with
  | nil => simp [strNodup]
  | cons x xs ih => simp [strNodup, ih, List.nodup_cons, Bool.and_eq_true]

/-- Extraction of the five `wf` components. -/
theorem wf_spec (A : AM.Automaton) (h : wf A = true) :
    (A.states.map (·.name)).Nodup ∧
    A.alphabet.symbols.Nodup ∧
    AM.epsilon ∉ A.alphabet.symbols ∧
    (∀ t ∈ A.transitions,
      A.get_state_by_name t.source.name = some t.source ∧
      A.get_state_by_name t.target.name = some t.target ∧
      (t.symbol ∈ A.alphabet.symbols ∨ t.symbol = AM.epsilon)) ∧
    trAllDistinct A.transitions = true := by
  rw [wf] at h
  simp only [Bool.and_eq_true, List.all_eq_true] at h
  obtain ⟨⟨⟨⟨h1, h2⟩, h3⟩, h4⟩, h5⟩ := h
  refine ⟨(strNodup_iff _).mp h1, (strNodup_iff _).mp h2, by simpa using h3, ?_, h5⟩
  intro t ht
  have := h4 t ht
  simp only [Bool.and_eq_true, beq_iff_eq, Bool.or_eq_true, List.elem_iff] at this
  exact ⟨this.1.1, this.1.2, this.2⟩

/-! ## `copy` is the identity on well-formed automata -/

theorem copy_alpha_fold (l : List String) (acc : AM.Automaton) :
    l.foldl (fun acc s => { acc with alphabet := acc.alphabet.add_symbol s }) acc =
      { acc with alphabet := l.foldl AM.Alphabet.add_symbol acc.alphabet } := by
  induction l generalizing acc with
  | nil => rfl
  | cons x xs ih => rw [List.foldl_cons, List.foldl_cons, ih]

theorem add_symbol_fold (l : List String) (pre : List String)
    (hnd : l.Nodup) (hdisj : ∀ s ∈ l, s ∉ pre) (heps : AM.epsilon ∉ l) :
    l.foldl AM.Alphabet.add_symbol ⟨pre⟩ = ⟨pre ++ l⟩ := by
  induction l generalizing pre with
  | nil => simp
  | cons x xs ih =>
    have hxe : (x == AM.epsilon) = false := by
      simp only [beq_eq_false_iff_ne, ne_eq]
      intro hc
      exact heps (hc ▸ List.mem_cons_self x xs)
    have hxp : pre.contains x = false := by
      simpa using hdisj x (List.mem_cons_self x xs)
    have hx : AM.Alphabet.add_symbol ⟨pre⟩ x = ⟨pre ++ [x]⟩ := by
      rw [AM.Alphabet.add_symbol]
      simp only [hxe, hxp, Bool.false_eq_true, if_false]
    rw [List.foldl_cons, hx,
      ih (pre ++ [x]) (List.nodup_cons.mp hnd).2
        (fun s hs => by
          simp only [List.mem_append, List.mem_singleton, not_or]
          exact ⟨hdisj s (List.mem_cons_of_mem x hs),
            fun he => (List.nodup_cons.mp hnd).1 (he ▸ hs)⟩)
        (fun he => heps (List.mem_cons_of_mem x he))]
    simp

theorem add_state_fold (l : List AM.State) (acc : AM.Automaton)
    (hnd : (l.map (·.name)).Nodup)
    (hnew : ∀ s ∈ l, acc.get_state_by_name s.name = none) :
    l.foldl (fun a s => a.add_state ⟨s.name, s.is_initial, s.is_final⟩) acc =
      { acc with states := acc.states ++ l } := by
  induction l generalizing acc with
  | nil => simp
  | cons x xs ih =>
    rw [List.map_cons, List.nodup_cons] at hnd
    have heta : (⟨x.name, x.is_initial, x.is_final⟩ : AM.State) = x := rfl
    have hadd : acc.add_state x = { acc with states := acc.states ++ [x] } := by
      rw [AM.Automaton.add_state, hnew x (List.mem_cons_self x xs)]
    rw [List.foldl_cons, heta, hadd,
      ih { acc with states := acc.states ++ [x] } hnd.2
        (fun s hs => by
          have h1 := hnew s (List.mem_cons_of_mem x hs)
          rw [AM.Automaton.get_state_by_name] at h1 ⊢
          simp only [List.find?_append, h1]
          have hxs : (x.name == s.name) = false := by
            refine beq_eq_false_iff_ne.mpr (fun he => hnd.1 ?_)
            exact List.mem_map.mpr ⟨s, hs, he.symm⟩
          simp [List.find?, hxs, Option.or])]
    simp

theorem add_symbol_id (al : AM.Alphabet) (s : String)
    (h : s ∈ al.symbols ∨ s = AM.epsilon) : al.add_symbol s = al := by
  rcases h with h | h
  · have hc : al.symbols.contains s = true := by simpa using h
    rw [AM.Alphabet.add_symbol, hc]
    simp
  · simp [AM.Alphabet.add_symbol, h]

theorem add_transition_fold (l : List AM.Transition) (acc : AM.Automaton)
    (hsrc : ∀ t ∈ l, acc.get_state_by_name t.source.name = some t.source)
    (htgt : ∀ t ∈ l, acc.get_state_by_name t.target.name = some t.target)
    (hsym : ∀ t ∈ l, t.symbol ∈ acc.alphabet.symbols ∨ t.symbol = AM.epsilon)
    (hnd : trAllDistinct l = true)
    (hnew : ∀ t ∈ l, AM.memTr acc.transitions t = false) :
    l.foldl (fun a t =>
      match a.get_state_by_name t.source.name, a.get_state_by_name t.target.name with
      | some src, some tgt => a.add_transition src t.symbol tgt
      | _, _ => a) acc = { acc with transitions := acc.transitions ++ l } := by
  induction l generalizing acc with
  | nil => simp
  | cons x xs ih =>
    rw [trAllDistinct] at hnd
    simp only [Bool.and_eq_true, Bool.not_eq_true'] at hnd
    have hmsrc : AM.memSt acc.states x.source = true :=
      memSt_self _ _ (List.mem_of_find?_eq_some (hsrc x (List.mem_cons_self x xs)))
    have hmtgt : AM.memSt acc.states x.target = true :=
      memSt_self _ _ (List.mem_of_find?_eq_some (htgt x (List.mem_cons_self x xs)))
    have heta : (⟨x.source, x.symbol, x.target⟩ : AM.Transition) = x := rfl
    have hadd : acc.add_transition x.source x.symbol x.target =
        { acc with transitions := acc.transitions ++ [x] } := by
      rw [AM.Automaton.add_transition]
      simp only [hmsrc, if_true, hmtgt,
        add_symbol_id acc.alphabet x.symbol (hsym x (List.mem_cons_self x xs)), heta,
        hnew x (List.mem_cons_self x xs), Bool.false_eq_true, if_false]
    rw [List.foldl_cons, hsrc x (List.mem_cons_self x xs), htgt x (List.mem_cons_self x xs)]
    rw [show (match some x.source, some x.target with
      | some src, some tgt => acc.add_transition src x.symbol tgt
      | _, _ => acc) = acc.add_transition x.source x.symbol x.target from rfl, hadd]
    rw [ih { acc with transitions := acc.transitions ++ [x] }
      (fun t ht => hsrc t (List.mem_cons_of_mem x ht))
      (fun t ht => htgt t (List.mem_cons_of_mem x ht))
      (fun t ht => hsym t (List.mem_cons_of_mem x ht))
      hnd.2
      (fun t ht => by
        rw [memTr_append]
        simp only [Bool.or_eq_false_iff]
        refine ⟨hnew t (List.mem_cons_of_mem x ht), ?_⟩
        simp only [AM.memTr, List.any_eq_false] at hnd ⊢
        intro y hy
        rw [List.mem_singleton] at hy
        rw [hy, trEq_comm]
        exact hnd.1 t ht)]
    simp

theorem copy_eq_self (A : AM.Automaton) (h : wf A = true) : A.copy = A := by
  obtain ⟨h1, h2, h3, h4, h5⟩ := wf_spec A h
  rw [AM.Automaton.copy, copy_alpha_fold,
    add_symbol_fold A.alphabet.symbols [] h2 (by simp) h3]
  simp only [List.nil_append]
  rw [add_state_fold A.states ⟨A.name, ⟨A.alphabet.symbols⟩, [], []⟩ h1 (fun s _ => rfl)]
  simp only [List.nil_append]
  rw [add_transition_fold A.transitions ⟨A.name, ⟨A.alphabet.symbols⟩, A.states, []⟩
    (fun t ht => (h4 t ht).1) (fun t ht => (h4 t ht).2.1) (fun t ht => (h4 t ht).2.2) h5
    (fun t _ => rfl)]
  simp only [List.nil_append]

/-! ## The automaton name is irrelevant to the analysis predicates -/

theorem is_det_rename (A : AM.Automaton) (n : String) :
    DeterministicOperations.is_deterministic { A with name := n } =
      DeterministicOperations.is_deterministic A := rfl

theorem is_complete_rename (A : AM.Automaton) (n : String) :
    DeterministicOperations.is_complete { A with name := n } =
      DeterministicOperations.is_complete A := rfl

/-! ## Claim theorems on concrete inputs -/

/-- C1: refuted on `ceNFA`. In the subset construction the
`dfa.add_transition` call sits inside the `if next_states_frozen not in
state_map:` branch (conversion.py line 114), so a transition is recorded
only when the successor subset is fresh. Processing subset `{q0, q1}` on
`a` yields the nonempty, already-seen successor `{q0, q1}` and no
transition at all: the resulting DFA has states `q0` and `q0_q1` but its
only transition is `q0 --a--> q0_q1`, contradicting the claim that a
transition is added regardless of whether the subset was seen before. -/
theorem C1_transition_only_for_fresh_subsets :
    (ConversionOperations.nfa_to_dfa Claims.ceNFA).map
        (fun d => (d.states.map (fun s => s.name),
          d.transitions.map (fun t => (t.source.name, t.symbol, t.target.name)))) =
      some (["q0", "q0_q1"], [("q0", "a", "q0_q1")]) ∧
    ConversionOperations.moveClosure Claims.ceNFA [Claims.ceQ0, Claims.ceQ1] "a" =
      some [Claims.ceQ0, Claims.ceQ1] := by
  decide

/-- C2: refuted on `ceNFA` with the word `aa`. The NFA accepts `aa`
(`{q0} → {q0, q1} → {q0, q1}`, final), but the converted DFA rejects it
because the back-transition from `q0_q1` on `a` was dropped by the slip
documented at `C1_transition_only_for_fresh_subsets`. -/
theorem C2_acceptance_disagrees_after_conversion :
    LanguageOperations.accepts_word Claims.ceNFA "aa" = some true ∧
    (ConversionOperations.nfa_to_dfa Claims.ceNFA).bind
        (fun d => LanguageOperations.accepts_word d "aa") = some false := by
  decide

/-- C3: refuted on `c3A`. `minimize(c3A)` keeps the `a` self-loop of `q0`
(the deterministic input is never converted), but inside
`are_equivalent(c3A, minimize(c3A))` the first operand passes through
`copy`, which widens the alphabet with the stray symbol `c`, making the
copy nondeterministic; the subset construction then drops the self-loop
`{q0} --a--> {q0}` (the slip of `C1_transition_only_for_fresh_subsets`),
so the two minimal DFAs disagree and the function returns `false`. -/
theorem C3_equivalence_with_own_minimization_fails :
    (MinimizationOperations.minimize Claims.c3A).bind
        (fun m => LanguageOperations.are_equivalent Claims.c3A m) = some false := by
  decide

/-- C10: refuted on `c10A`. The subsets `{x_y}` and `{x, y}` both receive
the joined name `x_y`; the duplicate `add_state` is silently ignored, both
subset-states emit an `a` transition under the same source name, and
`is_deterministic` consequently reports the produced automaton as
nondeterministic. -/
theorem C10_subset_output_not_deterministic :
    (ConversionOperations.nfa_to_dfa Claims.c10A).map
      DeterministicOperations.is_deterministic = some false := by
  decide

/-- C7, counterexample: the claimed value of `generate_words` omits `"0"`
(zero `1`s is an even count) and `accepts_word(dfa, "101")` is `true`,
since `101` contains two `1`s, not three. -/
theorem C7_counterexample :
    ¬(LanguageOperations.generate_words Claims.evenOnesDfa 2 true = some ["", "00", "11"] ∧
      LanguageOperations.accepts_word Claims.evenOnesDfa "101" = some false) := by
  decide

/-- C7, amended: on the even-number-of-`1`s DFA, `generate_words(dfa, 2,
accepted=True)` returns exactly `["", "0", "00", "11"]` in
lexicographic-by-length order, and `accepts_word(dfa, "101")` returns
`true` (`101` has an even number of `1`s). -/
theorem C7_generated_words_and_membership :
    LanguageOperations.generate_words Claims.evenOnesDfa 2 true =
      some ["", "0", "00", "11"] ∧
    LanguageOperations.accepts_word Claims.evenOnesDfa "101" = some true := by
  decide

/-- C5, counterexample: `c5A` is deterministic and incomplete but already
owns a (final) state named `sink`; completion then adds no state at all —
the state list is unchanged, so no synthetic non-final sink was added and
the reserved name collided with an existing state. -/
theorem C5_sink_name_collision :
    (DeterministicOperations.is_deterministic Claims.c5A = true ∧
     DeterministicOperations.is_complete Claims.c5A = false) ∧
    (DeterministicOperations.complete_automaton Claims.c5A).map
      (fun r => r.states) = some [Claims.c5q0, Claims.c5sink] := by
  decide

/-- C6, counterexample: on the one-state automaton `c6A` the two
completion implementations return automata with identical alphabets,
states and transitions but different names (`M_completed` vs
`M_complete`), so the results are not identical. -/
theorem C6_results_differ_in_name :
    (DeterministicOperations.complete_automaton Claims.c6A).map (fun r => r.name) =
      some "M_completed" ∧
    (CompletionOperations.complete_automaton Claims.c6A).map (fun r => r.name) =
      some "M_complete" ∧
    DeterministicOperations.complete_automaton Claims.c6A ≠
      CompletionOperations.complete_automaton Claims.c6A := by
  decide

/-- C4: `is_deterministic` returns `true` precisely when the automaton has
exactly one initial state, no transition labelled with the epsilon
sentinel, and at most one transition per state and alphabet symbol. It is
a total Boolean function, so on any violation it returns `false` and no
exception path exists. -/
theorem C4_is_deterministic_characterization (A : AM.Automaton) :
    DeterministicOperations.is_deterministic A = true ↔
      (A.initial_states.length = 1 ∧
       (∀ t ∈ A.transitions, t.symbol ≠ AM.epsilon) ∧
       ∀ s ∈ A.states, ∀ c ∈ A.alphabet.symbols,
         (A.get_reachable_states s c).length ≤ 1) := by
  simp only [DeterministicOperations.is_deterministic, Bool.and_eq_true, beq_iff_eq,
    Bool.not_eq_true', List.any_eq_false, List.all_eq_true, beq_eq_false_iff_ne,
    decide_eq_false_iff_not, Nat.not_lt, ne_eq]
  constructor
  · rintro ⟨⟨h1, h2⟩, h3⟩
    exact ⟨h1, h2, h3⟩
  · rintro ⟨h1, h2, h3⟩
    exact ⟨⟨h1, h2⟩, h3⟩

/-! ## Characterizing the sink-completion folds -/

theorem trEq_refl (t : AM.Transition) : AM.trEq t t = true := by
  simp [AM.trEq, AM.stEq]

theorem memTr_of_mem {l : List AM.Transition} {t : AM.Transition} (h : t ∈ l) :
    AM.memTr l t = true :=
  (memTr_iff l t).mpr ⟨t, h, trEq_refl t⟩

theorem reach_isEmpty_iff (A : AM.Automaton) (s : AM.State) (c : String) :
    (A.get_reachable_states s c).isEmpty = true ↔
      ∀ t ∈ A.transitions, ¬(t.source.name = s.name ∧ t.symbol = c) := by
  simp only [AM.Automaton.get_reachable_states, AM.Automaton.get_transitions_from,
    List.isEmpty_iff, List.map_eq_nil_iff, List.filter_eq_nil_iff, AM.stEq,
    Bool.and_eq_true, beq_iff_eq, not_and]

theorem reach_append_irrelevant (R : AM.Automaton) (extra : List AM.Transition)
    (s : AM.State) (c : String)
    (h : ∀ t ∈ extra, ¬(t.source.name = s.name ∧ t.symbol = c)) :
    ({ R with transitions := R.transitions ++ extra } : AM.Automaton).get_reachable_states s c =
      R.get_reachable_states s c := by
  simp only [AM.Automaton.get_reachable_states, AM.Automaton.get_transitions_from,
    List.filter_append]
  rw [show extra.filter (fun t => AM.stEq t.source s && (t.symbol == c)) = [] from
    List.filter_eq_nil_iff.mpr (fun t ht => by
      simp only [AM.stEq, Bool.and_eq_true, beq_iff_eq, not_and]
      intro h1 h2
      exact h t ht ⟨h1, h2⟩)]
  simp

theorem add_transition_of_missing (acc : AM.Automaton) (s k : AM.State) (c : String)
    (hs : AM.memSt acc.states s = true) (hk : AM.memSt acc.states k = true)
    (hc : c ∈ acc.alphabet.symbols ∨ c = AM.epsilon)
    (hmiss : (acc.get_reachable_states s c).isEmpty = true) :
    acc.add_transition s c k = { acc with transitions := acc.transitions ++ [⟨s, c, k⟩] } := by
  rw [AM.Automaton.add_transition]
  have hm : AM.memTr acc.transitions ⟨s, c, k⟩ = false := by
    rw [Bool.eq_false_iff]
    intro hmem
    obtain ⟨y, hy, hYeq⟩ := (memTr_iff _ _).mp hmem
    rw [trEq_iff] at hYeq
    exact (reach_isEmpty_iff acc s c).mp hmiss y hy ⟨hYeq.1, hYeq.2.1⟩
  simp only [hs, if_true, hk, add_symbol_id _ _ hc, hm, Bool.false_eq_true, if_false]

theorem add_transition_id (F : AM.Automaton) (src tgt : AM.State) (c : String)
    (hs : AM.memSt F.states src = true) (ht : AM.memSt F.states tgt = true)
    (hc : c ∈ F.alphabet.symbols ∨ c = AM.epsilon)
    (hm : AM.memTr F.transitions ⟨src, c, tgt⟩ = true) :
    F.add_transition src c tgt = F := by
  rw [AM.Automaton.add_transition]
  simp only [hs, if_true, ht, add_symbol_id _ _ hc, hm]

/-- The inner (per-state) loop of the completion fill: it appends one
`⟨s, c, k⟩` transition for every symbol `c` whose `(s, c)` pair was missing
at the start, and nothing else. -/
theorem fillInner_spec (s k : AM.State) (syms : List String) (acc : AM.Automaton)
    (hnd : syms.Nodup)
    (hal : ∀ c ∈ syms, c ∈ acc.alphabet.symbols)
    (hs : AM.memSt acc.states s = true) (hk : AM.memSt acc.states k = true) :
    ∃ adds,
      (syms.foldl (fun acc2 c =>
        if (acc2.get_reachable_states s c).isEmpty then acc2.add_transition s c k
        else acc2) acc) =
        { acc with transitions := acc.transitions ++ adds } ∧
      (∀ t ∈ adds, t.source = s ∧ t.target = k ∧ t.symbol ∈ syms) ∧
      (∀ c ∈ syms, (acc.get_reachable_states s c).isEmpty = true →
        (⟨s, c, k⟩ : AM.Transition) ∈ acc.transitions ++ adds) := by
  induction syms generalizing acc with
  | nil => exact ⟨[], by simp, by simp, by simp⟩
  | cons c rest ih =>
    rw [List.nodup_cons] at hnd
    rw [List.foldl_cons]
    rcases hg : (acc.get_reachable_states s c).isEmpty with _ | _
    · simp only [Bool.false_eq_true, if_false]
      obtain ⟨adds, heq, hshape, hcov⟩ := ih acc hnd.2
        (fun c' hc' => hal c' (List.mem_cons_of_mem c hc')) hs hk
      refine ⟨adds, heq, fun t ht => ?_, fun c' hc' hmiss => ?_⟩
      · obtain ⟨h1, h2, h3⟩ := hshape t ht
        exact ⟨h1, h2, List.mem_cons_of_mem c h3⟩
      · rcases List.mem_cons.mp hc' with h | h
        · rw [h] at hmiss
          rw [hmiss] at hg
          exact absurd hg (by simp)
        · exact hcov c' h hmiss
    · simp only [if_true]
      rw [add_transition_of_missing acc s k c hs hk
        (Or.inl (hal c (List.mem_cons_self c rest))) hg]
      set acc2 : AM.Automaton := { acc with transitions := acc.transitions ++ [⟨s, c, k⟩] }
        with hacc2
      obtain ⟨adds, heq, hshape, hcov⟩ := ih acc2 hnd.2
        (fun c' hc' => hal c' (List.mem_cons_of_mem c hc')) hs hk
      refine ⟨⟨s, c, k⟩ :: adds, ?_, fun t ht => ?_, fun c' hc' hmiss => ?_⟩
      · rw [heq, hacc2]
        simp
      · rcases List.mem_cons.mp ht with h | h
        · rw [h]
          exact ⟨rfl, rfl, List.mem_cons_self c rest⟩
        · obtain ⟨h1, h2, h3⟩ := hshape t h
          exact ⟨h1, h2, List.mem_cons_of_mem c h3⟩
      · rcases List.mem_cons.mp hc' with h | h
        · rw [h]
          simp
        · have hmiss2 : (acc2.get_reachable_states s c').isEmpty = true := by
            rw [hacc2, reach_append_irrelevant acc [⟨s, c, k⟩] s c'
              (fun t ht => by
                rw [List.mem_singleton] at ht
                rw [ht]
                rintro ⟨_, h2⟩
                have h2' : c = c' := h2
                subst h2'
                exact hnd.1 h)]
            exact hmiss
          have := hcov c' h hmiss2
          rw [hacc2] at this
          simp only [List.append_assoc] at this ⊢
          simpa using this

/-- The outer loop of the completion fill, generalized over the remaining
states and the additions already made for earlier states. -/
theorem fillOuter_go (R : AM.Automaton) (k : AM.State) (sts : List AM.State)
    (adds0 : List AM.Transition)
    (hstsR : ∀ s ∈ sts, AM.memSt R.states s = true)
    (hndS : (sts.map (·.name)).Nodup)
    (hsnd : R.alphabet.symbols.Nodup)
    (hkR : AM.memSt R.states k = true)
    (hadds0 : ∀ t ∈ adds0, t.source.name ∉ sts.map (·.name)) :
    ∃ adds,
      sts.foldl (fun acc s => R.alphabet.symbols.foldl
          (fun acc2 c => if (acc2.get_reachable_states s c).isEmpty then
            acc2.add_transition s c k else acc2) acc)
        { R with transitions := R.transitions ++ adds0 } =
        { R with transitions := R.transitions ++ adds0 ++ adds } ∧
      (∀ t ∈ adds, (∃ s ∈ sts, t.source = s) ∧ t.target = k ∧
        t.symbol ∈ R.alphabet.symbols) ∧
      (∀ s ∈ sts, ∀ c ∈ R.alphabet.symbols,
        (R.get_reachable_states s c).isEmpty = true →
        (⟨s, c, k⟩ : AM.Transition) ∈ R.transitions ++ adds0 ++ adds) := by
  induction sts generalizing adds0 with
  | nil => exact ⟨[], by simp, by simp, by simp⟩
  | cons s rest ih =>
    rw [List.map_cons, List.nodup_cons] at hndS
    rw [List.foldl_cons]
    set acc : AM.Automaton := { R with transitions := R.transitions ++ adds0 } with hacc
    obtain ⟨adds1, heq1, hshape1, hcov1⟩ := fillInner_spec s k R.alphabet.symbols acc hsnd
      (fun c hc => hc) (hstsR s (List.mem_cons_self s rest)) hkR
    have hreachA : ∀ c, acc.get_reachable_states s c = R.get_reachable_states s c := by
      intro c
      rw [hacc, reach_append_irrelevant R adds0 s c (fun t ht => by
        rintro ⟨h1, _⟩
        refine hadds0 t ht ?_
        rw [h1, List.map_cons]
        exact List.mem_cons_self s.name (rest.map (·.name)))]
    rw [heq1]
    have hstep : ({ acc with transitions := acc.transitions ++ adds1 } : AM.Automaton) =
        { R with transitions := R.transitions ++ (adds0 ++ adds1) } := by
      rw [hacc]
      simp
    rw [hstep]
    obtain ⟨adds2, heq2, hshape2, hcov2⟩ := ih (adds0 ++ adds1)
      (fun s' hs' => hstsR s' (List.mem_cons_of_mem s hs'))
      hndS.2 (fun t ht => by
        rcases List.mem_append.mp ht with h | h
        · intro hc
          exact hadds0 t h (List.mem_cons_of_mem _ hc)
        · obtain ⟨h1, _, _⟩ := hshape1 t h
          rw [h1]
          intro hc
          exact hndS.1 hc)
    refine ⟨adds1 ++ adds2, ?_, fun t ht => ?_, fun s' hs' c hc hmiss => ?_⟩
    · rw [heq2]
      simp
    · rcases List.mem_append.mp ht with h | h
      · obtain ⟨h1, h2, h3⟩ := hshape1 t h
        exact ⟨⟨s, List.mem_cons_self s rest, h1⟩, h2, h3⟩
      · obtain ⟨⟨s', hs', h1⟩, h2, h3⟩ := hshape2 t h
        exact ⟨⟨s', List.mem_cons_of_mem s hs', h1⟩, h2, h3⟩
    · rcases List.mem_cons.mp hs' with h | h
      · subst h
        have := hcov1 c hc (by rw [hreachA c]; exact hmiss)
        rw [hacc] at this
        simp only [List.append_assoc] at this ⊢
        simp only [List.mem_append] at this ⊢
        tauto
      · have := hcov2 s' h c hc hmiss
        simp only [List.append_assoc] at this ⊢
        simp only [List.mem_append] at this ⊢
        tauto

/-- `fillMissing` characterized: states, alphabet and name are untouched,
existing transitions are kept, and every `(state, symbol)` pair that lacked
a transition gains one into the sink. -/
theorem fillMissing_spec (R : AM.Automaton) (k : AM.State)
    (hnd : (R.states.map (·.name)).Nodup)
    (hsnd : R.alphabet.symbols.Nodup)
    (hk : AM.memSt R.states k = true) :
    ∃ adds,
      DeterministicOperations.fillMissing R k =
        { R with transitions := R.transitions ++ adds } ∧
      (∀ t ∈ adds, (∃ s ∈ R.states, t.source = s) ∧ t.target = k ∧
        t.symbol ∈ R.alphabet.symbols) ∧
      (∀ s ∈ R.states, ∀ c ∈ R.alphabet.symbols,
        (R.get_reachable_states s c).isEmpty = true →
        (⟨s, c, k⟩ : AM.Transition) ∈ R.transitions ++ adds) := by
  obtain ⟨adds, heq, hshape, hcov⟩ := fillOuter_go R k R.states []
    (fun s hs => memSt_self _ _ hs) hnd hsnd hk (by simp)
  simp only [List.append_nil] at heq hcov
  exact ⟨adds, by rw [DeterministicOperations.fillMissing]; exact heq, hshape, hcov⟩

/-- `addLoops` is the identity once every sink self-loop is already
present (which the fill loop has ensured). -/
theorem addLoops_id (F : AM.Automaton) (k : AM.State)
    (hk : AM.memSt F.states k = true)
    (h : ∀ c ∈ F.alphabet.symbols, AM.memTr F.transitions ⟨k, c, k⟩ = true) :
    DeterministicOperations.addLoops F k = F := by
  rw [DeterministicOperations.addLoops]
  have : ∀ (l : List String), (∀ c ∈ l, c ∈ F.alphabet.symbols) →
      l.foldl (fun acc c => acc.add_transition k c k) F = F := by
    intro l
    induction l with
    | nil => intro _; rfl
    | cons c rest ih =>
      intro hl
      rw [List.foldl_cons, add_transition_id F k k c hk hk
        (Or.inl (hl c (List.mem_cons_self c rest))) (h c (hl c (List.mem_cons_self c rest)))]
      exact ih (fun c' hc' => hl c' (List.mem_cons_of_mem c hc'))
  exact this F.alphabet.symbols (fun c hc => hc)

/-- C5 (amended): for every well-formed automaton that is deterministic,
not complete, and has no state already named `sink`, `complete_automaton`
returns an automaton in which exactly one synthetic sink state
(non-initial, non-final, named `sink`, a name distinct from every
pre-existing state name by hypothesis) was appended, every `(state,
symbol)` pair lacking a transition gained a transition to the sink, the
sink has a self-loop on every alphabet symbol, and the alphabet and the
original transitions are preserved. The name-freshness hypothesis is
forced by `C5_sink_name_collision`: with a pre-existing `sink` state the
procedure adds no state at all. -/
theorem C5_completion_adds_fresh_sink (A : AM.Automaton) (hwf : wf A = true)
    (hdet : DeterministicOperations.is_deterministic A = true)
    (hinc : DeterministicOperations.is_complete A = false)
    (hname : ∀ s ∈ A.states, s.name ≠ "sink") :
    ∃ R, DeterministicOperations.complete_automaton A = some R ∧
      R.states = A.states ++ [⟨"sink", false, false⟩] ∧
      R.alphabet = A.alphabet ∧
      (∀ t ∈ A.transitions, t ∈ R.transitions) ∧
      (∀ s ∈ A.states, ∀ c ∈ A.alphabet.symbols,
        A.get_reachable_states s c = [] →
          (⟨s, c, ⟨"sink", false, false⟩⟩ : AM.Transition) ∈ R.transitions) ∧
      (∀ c ∈ A.alphabet.symbols,
        (⟨⟨"sink", false, false⟩, c, ⟨"sink", false, false⟩⟩ : AM.Transition) ∈
          R.transitions) := by
  obtain ⟨hn1, hn2, hn3, hn4, hn5⟩ := wf_spec A hwf
  set sink : AM.State := ⟨"sink", false, false⟩ with hsinkdef
  set nn := A.name ++ "_completed" with hnn
  set r1 : AM.Automaton := { A with name := nn, states := A.states ++ [sink] } with hr1
  have hfind : (({ A with name := nn } : AM.Automaton).get_state_by_name "sink") = none := by
    rw [AM.Automaton.get_state_by_name]
    refine List.find?_eq_none.mpr (fun s hs => ?_)
    simpa using hname s hs
  have hadd : ({ A with name := nn } : AM.Automaton).add_state sink = r1 := by
    rw [AM.Automaton.add_state, hfind]
  have hpipe : DeterministicOperations.complete_automaton A =
      some (DeterministicOperations.addLoops
        (DeterministicOperations.fillMissing r1 sink) sink) := by
    rw [DeterministicOperations.complete_automaton, copy_eq_self A hwf]
    simp only [is_det_rename, hdet, if_true, is_complete_rename, hinc,
      Bool.false_eq_true, if_false, hadd]
  have hndr : (r1.states.map (·.name)).Nodup := by
    rw [hr1]
    simp only [List.map_append, List.map_cons, List.map_nil]
    rw [List.nodup_append]
    refine ⟨hn1, List.nodup_singleton _, fun a ha hb => ?_⟩
    obtain ⟨s, hs, rfl⟩ := List.mem_map.mp ha
    rw [List.mem_singleton] at hb
    exact hname s hs hb
  have hkmem : AM.memSt r1.states sink = true := by
    rw [hr1]
    exact memSt_self _ _ (List.mem_append_right _ (List.mem_singleton.mpr rfl))
  have hre : ∀ s c, r1.get_reachable_states s c = A.get_reachable_states s c :=
    fun s c => rfl
  obtain ⟨adds, heqF, hshape, hcov⟩ := fillMissing_spec r1 sink hndr hn2 hkmem
  have hsinkrow : ∀ c ∈ A.alphabet.symbols,
      (⟨sink, c, sink⟩ : AM.Transition) ∈ A.transitions ++ adds := by
    intro c hc
    refine hcov sink (by rw [hr1]; exact List.mem_append_right _ (List.mem_singleton.mpr rfl))
      c hc ?_
    rw [hre]
    refine (reach_isEmpty_iff A sink c).mpr (fun t ht => ?_)
    rintro ⟨h1, _⟩
    exact hname t.source (List.mem_of_find?_eq_some (hn4 t ht).1) h1
  have hF : (DeterministicOperations.fillMissing r1 sink) =
      { r1 with transitions := A.transitions ++ adds } := heqF
  have hloops : DeterministicOperations.addLoops
      (DeterministicOperations.fillMissing r1 sink) sink =
      DeterministicOperations.fillMissing r1 sink := by
    refine addLoops_id _ sink ?_ ?_
    · rw [hF]
      exact hkmem
    · intro c hc
      rw [hF] at hc ⊢
      exact memTr_of_mem (hsinkrow c hc)
  refine ⟨_, by rw [hpipe, hloops], ?_, ?_, ?_, ?_, ?_⟩
  · rw [hF, hr1]
  · rw [hF, hr1]
  · intro t ht
    rw [hF]
    exact List.mem_append_left _ ht
  · intro s hs c hc hmiss
    rw [hF]
    refine hcov s (by rw [hr1]; exact List.mem_append_left _ hs) c hc ?_
    rw [hre, hmiss]
    rfl
  · intro c hc
    rw [hF]
    exact hsinkrow c hc

/-- Witness for `C5_completion_adds_fresh_sink` at the concrete automaton
`c6A` (one initial state over `{a}`, no transitions): the hypotheses hold
by computation and the theorem applies. -/
theorem C5_completion_adds_fresh_sink_witness :
    (wf Claims.c6A = true ∧
     DeterministicOperations.is_deterministic Claims.c6A = true ∧
     DeterministicOperations.is_complete Claims.c6A = false ∧
     (∀ s ∈ Claims.c6A.states, s.name ≠ "sink")) ∧
    (∃ R, DeterministicOperations.complete_automaton Claims.c6A = some R ∧
      R.states = Claims.c6A.states ++ [⟨"sink", false, false⟩] ∧
      R.alphabet = Claims.c6A.alphabet ∧
      (∀ t ∈ Claims.c6A.transitions, t ∈ R.transitions) ∧
      (∀ s ∈ Claims.c6A.states, ∀ c ∈ Claims.c6A.alphabet.symbols,
        Claims.c6A.get_reachable_states s c = [] →
          (⟨s, c, ⟨"sink", false, false⟩⟩ : AM.Transition) ∈ R.transitions) ∧
      (∀ c ∈ Claims.c6A.alphabet.symbols,
        (⟨⟨"sink", false, false⟩, c, ⟨"sink", false, false⟩⟩ : AM.Transition) ∈
          R.transitions)) :=
  ⟨⟨by decide, by decide, by decide, by decide⟩,
    C5_completion_adds_fresh_sink Claims.c6A (by decide) (by decide) (by decide) (by decide)⟩

/-! ## Exact characterization of the completion folds

The fill and self-loop folds read only the alphabet, state and transition
components, never the automaton name; the lemmas below compute their
effect as explicit functions of those components, which both pins down the
result and shows the two duplicated completion implementations agree on
everything except the name they give the result. -/

/-- The `(s, c)` pair has no transition in `trs` (by source name and
symbol), the condition `get_reachable_states`-emptiness tests. -/
def missb (trs : List AM.Transition) (s : AM.State) (c : String) : Bool :=
  !(trs.any (fun t => AM.stEq t.source s && t.symbol == c))

theorem reach_isEmpty_eq (X : AM.Automaton) (s : AM.State) (c : String) :
    (X.get_reachable_states s c).isEmpty = missb X.transitions s c := by
  rw [AM.Automaton.get_reachable_states, AM.Automaton.get_transitions_from, missb]
  rcases h : X.transitions.any (fun t => AM.stEq t.source s && t.symbol == c) with _ | _
  · rw [List.any_eq_false] at h
    rw [show X.transitions.filter (fun t => AM.stEq t.source s && (t.symbol == c)) = []
      from List.filter_eq_nil_iff.mpr h]
    rfl
  · rw [List.any_eq_true] at h
    obtain ⟨t, ht, hp⟩ := h
    have : t ∈ X.transitions.filter (fun t => AM.stEq t.source s && (t.symbol == c)) :=
      List.mem_filter.mpr ⟨ht, hp⟩
    rcases hl : X.transitions.filter (fun t => AM.stEq t.source s && (t.symbol == c)) with _ | ⟨a, l⟩
    · rw [hl] at this
      exact absurd this (List.not_mem_nil t)
    · rw [hl]
      rfl

theorem missb_append (trs extra : List AM.Transition) (s : AM.State) (c : String)
    (h : ∀ t ∈ extra, ¬(t.source.name = s.name ∧ t.symbol = c)) :
    missb (trs ++ extra) s c = missb trs s c := by
  rw [missb, missb, List.any_append]
  rw [show extra.any (fun t => AM.stEq t.source s && t.symbol == c) = false from
    List.any_eq_false.mpr (fun t ht => by
      simp only [AM.stEq, Bool.and_eq_true, beq_iff_eq, not_and]
      intro h1 h2
      exact h t ht ⟨h1, h2⟩)]
  simp

/-- The transitions the fill loop adds for one state: one per symbol whose
pair was missing. -/
def rowAdds (trs : List AM.Transition) (s k : AM.State) (syms : List String) :
    List AM.Transition :=
  (syms.filter (missb trs s)).map (fun c => ⟨s, c, k⟩)

/-- The transitions the fill loop adds in total, state by state. -/
def fillAdds (trs : List AM.Transition) (sts : List AM.State) (k : AM.State)
    (syms : List String) : List AM.Transition :=
  match sts with
  | [] => []
  | s :: rest => rowAdds trs s k syms ++ fillAdds trs rest k syms

/-- The self-loops the `addLoops` fold actually appends: one per symbol
whose loop is not already present. -/
def loopAdds (trs : List AM.Transition) (k : AM.State) (syms : List String) :
    List AM.Transition :=
  (syms.filter (fun c => !(AM.memTr trs ⟨k, c, k⟩))).map (fun c => ⟨k, c, k⟩)

theorem add_transition_append (acc : AM.Automaton) (src tgt : AM.State) (c : String)
    (hs : AM.memSt acc.states src = true) (ht : AM.memSt acc.states tgt = true)
    (hc : c ∈ acc.alphabet.symbols ∨ c = AM.epsilon)
    (hm : AM.memTr acc.transitions ⟨src, c, tgt⟩ = false) :
    acc.add_transition src c tgt =
      { acc with transitions := acc.transitions ++ [⟨src, c, tgt⟩] } := by
  rw [AM.Automaton.add_transition]
  simp only [hs, if_true, ht, add_symbol_id _ _ hc, hm, Bool.false_eq_true, if_false]

/-- Exact form of the per-state fill loop. -/
theorem fillInner_exact (s k : AM.State) (syms : List String) (acc : AM.Automaton)
    (hnd : syms.Nodup)
    (hal : ∀ c ∈ syms, c ∈ acc.alphabet.symbols)
    (hs : AM.memSt acc.states s = true) (hk : AM.memSt acc.states k = true) :
    (syms.foldl (fun acc2 c =>
      if (acc2.get_reachable_states s c).isEmpty then acc2.add_transition s c k
      else acc2) acc) =
      { acc with transitions := acc.transitions ++ rowAdds acc.transitions s k syms } := by
  induction syms generalizing acc with
  | nil => simp [rowAdds]
  | cons c rest ih =>
    rw [List.nodup_cons] at hnd
    rw [List.foldl_cons, reach_isEmpty_eq]
    rcases hg : missb acc.transitions s c with _ | _
    · simp only [Bool.false_eq_true, if_false]
      rw [ih acc hnd.2 (fun c' hc' => hal c' (List.mem_cons_of_mem c hc')) hs hk]
      rw [show rowAdds acc.transitions s k (c :: rest) = rowAdds acc.transitions s k rest from by
        rw [rowAdds, rowAdds, List.filter_cons, hg]
        simp]
    · simp only [if_true]
      have hmem : AM.memTr acc.transitions ⟨s, c, k⟩ = false := by
        rw [Bool.eq_false_iff]
        intro hmem
        obtain ⟨y, hy, hYeq⟩ := (memTr_iff _ _).mp hmem
        rw [trEq_iff] at hYeq
        rw [missb, Bool.not_eq_true', List.any_eq_false] at hg
        have := hg y hy
        simp only [AM.stEq, Bool.and_eq_true, beq_iff_eq, not_and] at this
        exact this hYeq.1 hYeq.2.1
      rw [add_transition_append acc s k c hs hk
        (Or.inl (hal c (List.mem_cons_self c rest))) hmem]
      set acc2 : AM.Automaton := { acc with transitions := acc.transitions ++ [⟨s, c, k⟩] }
        with hacc2
      rw [ih acc2 hnd.2 (fun c' hc' => hal c' (List.mem_cons_of_mem c hc')) hs hk]
      have hrow : rowAdds acc2.transitions s k rest = rowAdds acc.transitions s k rest := by
        rw [rowAdds, rowAdds]
        congr 1
        refine List.filter_congr (fun c' hc' => ?_)
        rw [hacc2]
        refine missb_append acc.transitions [⟨s, c, k⟩] s c' (fun t ht => ?_)
        rw [List.mem_singleton] at ht
        rw [ht]
        rintro ⟨_, h2⟩
        have h2' : c = c' := h2
        subst h2'
        exact hnd.1 hc'
      rw [hrow, hacc2]
      rw [show rowAdds acc.transitions s k (c :: rest) =
          ⟨s, c, k⟩ :: rowAdds acc.transitions s k rest from by
        rw [rowAdds, rowAdds, List.filter_cons, hg]
        simp]
      simp

/-- Exact form of the whole fill loop, generalized over the pending states
and the transitions already appended for the processed ones. -/
theorem fillOuter_exact (R : AM.Automaton) (k : AM.State) (sts : List AM.State)
    (adds0 : List AM.Transition)
    (hsrc0 : ∀ t ∈ adds0, t.source.name ∉ sts.map (·.name))
    (hsts : ∀ s ∈ sts, AM.memSt R.states s = true)
    (hndS : (sts.map (·.name)).Nodup)
    (hsnd : R.alphabet.symbols.Nodup)
    (hk : AM.memSt R.states k = true) :
    sts.foldl (fun acc s => R.alphabet.symbols.foldl
        (fun acc2 c => if (acc2.get_reachable_states s c).isEmpty then
          acc2.add_transition s c k else acc2) acc)
      { R with transitions := R.transitions ++ adds0 } =
    { R with transitions := R.transitions ++ adds0 ++
        fillAdds R.transitions sts k R.alphabet.symbols } := by
  induction sts generalizing adds0 with
  | nil => simp [fillAdds]
  | cons s rest ih =>
    rw [List.map_cons, List.nodup_cons] at hndS
    rw [List.foldl_cons]
    set acc : AM.Automaton := { R with transitions := R.transitions ++ adds0 } with hacc
    rw [fillInner_exact s k R.alphabet.symbols acc hsnd (fun c hc => hc)
      (hsts s (List.mem_cons_self s rest)) hk]
    have hrow : rowAdds acc.transitions s k R.alphabet.symbols =
        rowAdds R.transitions s k R.alphabet.symbols := by
      rw [rowAdds, rowAdds]
      congr 1
      refine List.filter_congr (fun c' hc' => ?_)
      rw [hacc]
      refine missb_append R.transitions adds0 s c' (fun t ht => ?_)
      rintro ⟨h1, _⟩
      refine hsrc0 t ht ?_
      rw [h1, List.map_cons]
      exact List.mem_cons_self s.name (rest.map (·.name))
    rw [hrow, hacc]
    have hstep : ({ { R with transitions := R.transitions ++ adds0 } with
        transitions := ({ R with transitions := R.transitions ++ adds0 } :
          AM.Automaton).transitions ++ rowAdds R.transitions s k R.alphabet.symbols } :
          AM.Automaton) =
        { R with transitions := R.transitions ++
          (adds0 ++ rowAdds R.transitions s k R.alphabet.symbols) } := by
      simp
    rw [hstep, ih (adds0 ++ rowAdds R.transitions s k R.alphabet.symbols)
      (fun t ht => by
        rcases List.mem_append.mp ht with h | h
        · intro hc
          exact hsrc0 t h (List.mem_cons_of_mem _ hc)
        · rw [rowAdds] at h
          obtain ⟨c, _, rfl⟩ := List.mem_map.mp h
          intro hc
          exact hndS.1 hc)
      (fun s' hs' => hsts s' (List.mem_cons_of_mem s hs')) hndS.2]
    rw [fillAdds]
    simp

/-- Exact form of `fillMissing`: the additions are a function of the
states, symbols and transitions alone. -/
theorem fillMissing_exact (R : AM.Automaton) (k : AM.State)
    (hnd : (R.states.map (·.name)).Nodup)
    (hsnd : R.alphabet.symbols.Nodup)
    (hk : AM.memSt R.states k = true) :
    DeterministicOperations.fillMissing R k =
      { R with transitions := R.transitions ++
          fillAdds R.transitions R.states k R.alphabet.symbols } := by
  have := fillOuter_exact R k R.states [] (by simp) (fun s hs => memSt_self _ _ hs)
    hnd hsnd hk
  simp only [List.append_nil] at this
  rw [DeterministicOperations.fillMissing]
  rw [show ({ R with transitions := R.transitions } : AM.Automaton) = R from rfl] at this
  exact this

theorem memTr_snoc_other (trs : List AM.Transition) (t x : AM.Transition)
    (h : AM.trEq t x = false) :
    AM.memTr (trs ++ [t]) x = AM.memTr trs x := by
  rw [memTr_append]
  simp [AM.memTr, h]

/-- Exact form of the self-loop fold, generalized over the symbol list. -/
theorem addLoops_go (k : AM.State) (syms : List String) (acc : AM.Automaton)
    (hnd : syms.Nodup) (hal : ∀ c ∈ syms, c ∈ acc.alphabet.symbols)
    (hk : AM.memSt acc.states k = true) :
    syms.foldl (fun a c => a.add_transition k c k) acc =
      { acc with transitions := acc.transitions ++ loopAdds acc.transitions k syms } := by
  induction syms generalizing acc with
  | nil => simp [loopAdds]
  | cons c rest ih =>
    rw [List.nodup_cons] at hnd
    rw [List.foldl_cons]
    rcases hm : AM.memTr acc.transitions ⟨k, c, k⟩ with _ | _
    · rw [add_transition_append acc k k c hk hk
        (Or.inl (hal c (List.mem_cons_self c rest))) hm]
      set acc2 : AM.Automaton := { acc with transitions := acc.transitions ++ [⟨k, c, k⟩] }
        with hacc2
      rw [ih acc2 hnd.2 (fun c' hc' => hal c' (List.mem_cons_of_mem c hc')) hk]
      have hl : loopAdds acc2.transitions k rest = loopAdds acc.transitions k rest := by
        rw [loopAdds, loopAdds]
        congr 1
        refine List.filter_congr (fun c' hc' => ?_)
        rw [hacc2, memTr_snoc_other]
        rw [Bool.eq_false_iff]
        intro he
        rw [trEq_iff] at he
        have h2' : c = c' := he.2.1
        subst h2'
        exact hnd.1 hc'
      rw [hl, hacc2]
      rw [show loopAdds acc.transitions k (c :: rest) =
          ⟨k, c, k⟩ :: loopAdds acc.transitions k rest from by
        rw [loopAdds, loopAdds, List.filter_cons]
        simp [hm]]
      simp
    · rw [add_transition_id acc k k c hk hk
        (Or.inl (hal c (List.mem_cons_self c rest))) hm]
      rw [ih acc hnd.2 (fun c' hc' => hal c' (List.mem_cons_of_mem c hc')) hk]
      rw [show loopAdds acc.transitions k (c :: rest) = loopAdds acc.transitions k rest from by
        rw [loopAdds, loopAdds, List.filter_cons]
        simp [hm]]

/-- Exact form of `addLoops`. -/
theorem addLoops_exact (F : AM.Automaton) (k : AM.State)
    (hnd : F.alphabet.symbols.Nodup)
    (hk : AM.memSt F.states k = true) :
    DeterministicOperations.addLoops F k =
      { F with transitions := F.transitions ++
          loopAdds F.transitions k F.alphabet.symbols } := by
  rw [DeterministicOperations.addLoops]
  exact addLoops_go k F.alphabet.symbols F hnd (fun c hc => hc) hk

/-- Both completion implementations run the identical sink pipeline; its
result is this explicit function of the automaton's non-name components
and the chosen result name. -/
theorem sink_pipeline_eval (A : AM.Automaton) (n : String) (S : List AM.State)
    (hnd : (S.map (·.name)).Nodup) (hsnd : A.alphabet.symbols.Nodup)
    (hk : AM.memSt S ⟨"sink", false, false⟩ = true) :
    DeterministicOperations.addLoops (DeterministicOperations.fillMissing
        { A with name := n, states := S } ⟨"sink", false, false⟩) ⟨"sink", false, false⟩ =
      ⟨n, A.alphabet, S,
        (A.transitions ++ fillAdds A.transitions S ⟨"sink", false, false⟩ A.alphabet.symbols) ++
          loopAdds (A.transitions ++ fillAdds A.transitions S ⟨"sink", false, false⟩
            A.alphabet.symbols) ⟨"sink", false, false⟩ A.alphabet.symbols⟩ := by
  have h1 : DeterministicOperations.fillMissing { A with name := n, states := S }
      ⟨"sink", false, false⟩ =
      ⟨n, A.alphabet, S, A.transitions ++
        fillAdds A.transitions S ⟨"sink", false, false⟩ A.alphabet.symbols⟩ :=
    fillMissing_exact { A with name := n, states := S } ⟨"sink", false, false⟩ hnd hsnd hk
  have h2 : DeterministicOperations.addLoops
      (⟨n, A.alphabet, S, A.transitions ++
        fillAdds A.transitions S ⟨"sink", false, false⟩ A.alphabet.symbols⟩ : AM.Automaton)
      ⟨"sink", false, false⟩ =
      ⟨n, A.alphabet, S,
        (A.transitions ++ fillAdds A.transitions S ⟨"sink", false, false⟩ A.alphabet.symbols) ++
          loopAdds (A.transitions ++ fillAdds A.transitions S ⟨"sink", false, false⟩
            A.alphabet.symbols) ⟨"sink", false, false⟩ A.alphabet.symbols⟩ :=
    addLoops_exact _ _ hsnd hk
  rw [h1, h2]

/-- C6 (amended): on every well-formed deterministic automaton the two
completion implementations return results with the same alphabet, the same
states, and the same transitions — in particular the same `sink` naming
policy and the same self-loop behavior — and can differ only in the
automaton name they assign (`..._completed` versus `..._complete` or the
unchanged name), as `C6_results_differ_in_name` exhibits. -/
theorem C6_completions_agree_except_name (A : AM.Automaton) (hwf : wf A = true)
    (hdet : DeterministicOperations.is_deterministic A = true) :
    ∃ R1 R2, DeterministicOperations.complete_automaton A = some R1 ∧
      CompletionOperations.complete_automaton A = some R2 ∧
      R1.alphabet = R2.alphabet ∧ R1.states = R2.states ∧
      R1.transitions = R2.transitions := by
  obtain ⟨hn1, hn2, hn3, hn4, hn5⟩ := wf_spec A hwf
  have hcopy := copy_eq_self A hwf
  rcases hcomp : DeterministicOperations.is_complete A with _ | _
  · have hcompC : CompletionOperations.is_complete A = false := hcomp
    have hDet : DeterministicOperations.complete_automaton A =
        some (DeterministicOperations.addLoops (DeterministicOperations.fillMissing
          (({ A with name := A.name ++ "_completed" } : AM.Automaton).add_state
            ⟨"sink", false, false⟩) ⟨"sink", false, false⟩) ⟨"sink", false, false⟩) := by
      rw [DeterministicOperations.complete_automaton, hcopy]
      simp only [is_det_rename, hdet, if_true, is_complete_rename, hcomp,
        Bool.false_eq_true, if_false]
    have hComp : CompletionOperations.complete_automaton A =
        some (DeterministicOperations.addLoops (DeterministicOperations.fillMissing
          (({ A with name := A.name ++ "_complete" } : AM.Automaton).add_state
            ⟨"sink", false, false⟩) ⟨"sink", false, false⟩) ⟨"sink", false, false⟩) := by
      rw [CompletionOperations.complete_automaton, hcopy]
      simp only [hdet, if_true, hcompC, Bool.false_eq_true, if_false, hcopy]
    rcases hf : A.get_state_by_name "sink" with _ | s0
    · have hS : ∀ n : String, ({ A with name := n } : AM.Automaton).add_state
          ⟨"sink", false, false⟩ =
          { A with name := n, states := A.states ++ [⟨"sink", false, false⟩] } := by
        intro n
        rw [AM.Automaton.add_state]
        rw [show ({ A with name := n } : AM.Automaton).get_state_by_name
          (AM.State.name ⟨"sink", false, false⟩) = A.get_state_by_name "sink" from rfl, hf]
      have hname : ∀ s ∈ A.states, s.name ≠ "sink" := by
        intro s hs
        have := List.find?_eq_none.mp hf s hs
        simpa using this
      have hnd : ((A.states ++ [(⟨"sink", false, false⟩ : AM.State)]).map (·.name)).Nodup := by
        simp only [List.map_append, List.map_cons, List.map_nil]
        rw [List.nodup_append]
        refine ⟨hn1, List.nodup_singleton _, fun a ha hb => ?_⟩
        obtain ⟨s, hs, rfl⟩ := List.mem_map.mp ha
        rw [List.mem_singleton] at hb
        exact hname s hs hb
      have hk : AM.memSt (A.states ++ [(⟨"sink", false, false⟩ : AM.State)])
          ⟨"sink", false, false⟩ = true :=
        memSt_self _ _ (List.mem_append_right _ (List.mem_singleton.mpr rfl))
      have heq1 : DeterministicOperations.complete_automaton A = some
          ⟨A.name ++ "_completed", A.alphabet, A.states ++ [⟨"sink", false, false⟩],
            (A.transitions ++ fillAdds A.transitions
              (A.states ++ [⟨"sink", false, false⟩]) ⟨"sink", false, false⟩
              A.alphabet.symbols) ++
            loopAdds (A.transitions ++ fillAdds A.transitions
              (A.states ++ [⟨"sink", false, false⟩]) ⟨"sink", false, false⟩
              A.alphabet.symbols) ⟨"sink", false, false⟩ A.alphabet.symbols⟩ := by
        rw [hDet, hS, sink_pipeline_eval A _ _ hnd hn2 hk]
      have heq2 : CompletionOperations.complete_automaton A = some
          ⟨A.name ++ "_complete", A.alphabet, A.states ++ [⟨"sink", false, false⟩],
            (A.transitions ++ fillAdds A.transitions
              (A.states ++ [⟨"sink", false, false⟩]) ⟨"sink", false, false⟩
              A.alphabet.symbols) ++
            loopAdds (A.transitions ++ fillAdds A.transitions
              (A.states ++ [⟨"sink", false, false⟩]) ⟨"sink", false, false⟩
              A.alphabet.symbols) ⟨"sink", false, false⟩ A.alphabet.symbols⟩ := by
        rw [hComp, hS, sink_pipeline_eval A _ _ hnd hn2 hk]
      exact ⟨_, _, heq1, heq2, rfl, rfl, rfl⟩
    · have hS : ∀ n : String, ({ A with name := n } : AM.Automaton).add_state
          ⟨"sink", false, false⟩ = { A with name := n, states := A.states } := by
        intro n
        rw [AM.Automaton.add_state]
        rw [show ({ A with name := n } : AM.Automaton).get_state_by_name
          (AM.State.name ⟨"sink", false, false⟩) = A.get_state_by_name "sink" from rfl, hf]
      have hk : AM.memSt A.states ⟨"sink", false, false⟩ = true := by
        have hs0 := List.mem_of_find?_eq_some hf
        have hp := List.find?_some hf
        refine (memSt_iff _ _).mpr ⟨s0, hs0, ?_⟩
        simpa using hp
      have heq1 : DeterministicOperations.complete_automaton A = some
          ⟨A.name ++ "_completed", A.alphabet, A.states,
            (A.transitions ++ fillAdds A.transitions A.states ⟨"sink", false, false⟩
              A.alphabet.symbols) ++
            loopAdds (A.transitions ++ fillAdds A.transitions A.states
              ⟨"sink", false, false⟩ A.alphabet.symbols)
              ⟨"sink", false, false⟩ A.alphabet.symbols⟩ := by
        rw [hDet, hS, sink_pipeline_eval A _ _ hn1 hn2 hk]
      have heq2 : CompletionOperations.complete_automaton A = some
          ⟨A.name ++ "_complete", A.alphabet, A.states,
            (A.transitions ++ fillAdds A.transitions A.states ⟨"sink", false, false⟩
              A.alphabet.symbols) ++
            loopAdds (A.transitions ++ fillAdds A.transitions A.states
              ⟨"sink", false, false⟩ A.alphabet.symbols)
              ⟨"sink", false, false⟩ A.alphabet.symbols⟩ := by
        rw [hComp, hS, sink_pipeline_eval A _ _ hn1 hn2 hk]
      exact ⟨_, _, heq1, heq2, rfl, rfl, rfl⟩
  · have hcompC : CompletionOperations.is_complete A = true := hcomp
    have heq1 : DeterministicOperations.complete_automaton A =
        some { A with name := A.name ++ "_completed" } := by
      rw [DeterministicOperations.complete_automaton, hcopy]
      simp only [is_det_rename, hdet, if_true, is_complete_rename, hcomp]
    have heq2 : CompletionOperations.complete_automaton A = some A := by
      rw [CompletionOperations.complete_automaton, hcopy]
      simp only [hdet, if_true, hcompC]
    exact ⟨_, _, heq1, heq2, rfl, rfl, rfl⟩

/-- Witness for `C6_completions_agree_except_name` at the concrete
deterministic automaton `c5A`. -/
theorem C6_completions_agree_except_name_witness :
    (wf Claims.c5A = true ∧ DeterministicOperations.is_deterministic Claims.c5A = true) ∧
    (∃ R1 R2, DeterministicOperations.complete_automaton Claims.c5A = some R1 ∧
      CompletionOperations.complete_automaton Claims.c5A = some R2 ∧
      R1.alphabet = R2.alphabet ∧ R1.states = R2.states ∧
      R1.transitions = R2.transitions) :=
  ⟨⟨by decide, by decide⟩,
    C6_completions_agree_except_name Claims.c5A (by decide) (by decide)⟩

/-! ## Termination bounds for the worklist loops -/

theorem countP_succ_le {α} (l : List α) (p q : α → Bool) (x : α)
    (hx : x ∈ l) (hpx : p x = true) (hqx : q x = false)
    (himp : ∀ a ∈ l, q a = true → p a = true) :
    l.countP q + 1 ≤ l.countP p := by
  induction l with
  | nil => cases hx
  | cons a rest ih =>
    rw [List.countP_cons, List.countP_cons]
    have himp' : ∀ a ∈ rest, q a = true → p a = true :=
      fun a ha hq => himp a (List.mem_cons_of_mem _ ha) hq
    rcases List.mem_cons.mp hx with rfl | hx'
    · rw [hpx, hqx]
      have hmono : rest.countP q ≤ rest.countP p :=
        List.countP_mono_left himp'
      simp only [if_true, Bool.false_eq_true, if_false]
      omega
    · have hrec := ih hx' himp'
      have hqa : (if q a = true then 1 else 0) ≤ (if p a = true then 1 else 0) := by
        rcases hq : q a with _ | _
        · simp
        · simp [himp a (List.mem_cons_self _ _) hq]
      omega

theorem memSt_mono (cl : List AM.State) (y x : AM.State) (h : AM.memSt cl x = true) :
    AM.memSt (cl ++ [y]) x = true := by
  rw [memSt_append, h]
  rfl

/-- One pop of the closure worklist does not increase the measure
`worklist length + number of transitions whose target is missing`. -/
theorem closure_fold_measure (A : AM.Automaton) (l : List AM.Transition)
    (hl : ∀ t ∈ l, t ∈ A.transitions) :
    ∀ (cl w : List AM.State),
    ((l.foldl (fun acc t => if AM.memSt acc.1 t.target then acc
      else (acc.1 ++ [t.target], acc.2 ++ [t.target])) (cl, w)).2.length +
      A.transitions.countP (fun t => !(AM.memSt (l.foldl (fun acc t =>
        if AM.memSt acc.1 t.target then acc
        else (acc.1 ++ [t.target], acc.2 ++ [t.target])) (cl, w)).1 t.target))) ≤
      w.length + A.transitions.countP (fun t => !(AM.memSt cl t.target)) := by
  induction l with
  | nil => intro cl w; simp
  | cons t rest ih =>
    intro cl w
    rw [List.foldl_cons]
    rcases hm : AM.memSt cl t.target with _ | _
    · simp only [hm, Bool.false_eq_true, if_false]
      refine le_trans (ih (fun t' ht' => hl t' (List.mem_cons_of_mem _ ht'))
        (cl ++ [t.target]) (w ++ [t.target])) ?_
      have hstep : A.transitions.countP (fun t' => !(AM.memSt (cl ++ [t.target]) t'.target)) + 1 ≤
          A.transitions.countP (fun t' => !(AM.memSt cl t'.target)) := by
        refine countP_succ_le A.transitions _ _ t (hl t (List.mem_cons_self _ _)) ?_ ?_ ?_
        · rw [hm]
          rfl
        · rw [Bool.not_eq_false', memSt_append]
          simp [AM.memSt, AM.stEq]
        · intro a _ hq
          rw [Bool.not_eq_true'] at hq ⊢
          rw [Bool.eq_false_iff] at hq ⊢
          intro hc
          exact hq (memSt_mono cl t.target a.target hc)
      simp only [List.length_append, List.length_cons, List.length_nil]
      omega
    · simp only [if_true]
      exact ih (fun t' ht' => hl t' (List.mem_cons_of_mem _ ht')) cl w

/-- The closure worklist loop returns within the measure's fuel. -/
theorem closureLoop_isSome (A : AM.Automaton) :
    ∀ (fuel : Nat) (cl wl : List AM.State),
      wl.length + A.transitions.countP (fun t => !(AM.memSt cl t.target)) ≤ fuel →
      (ConversionOperations.closureLoop A fuel cl wl).isSome := by
  intro fuel
  induction fuel with
  | zero =>
    intro cl wl h
    cases wl with
    | nil => rw [ConversionOperations.closureLoop]; rfl
    | cons s rest => simp at h
  | succ f ih =>
    intro cl wl h
    cases wl with
    | nil => rw [ConversionOperations.closureLoop]; rfl
    | cons s rest =>
      rw [ConversionOperations.closureLoop]
      refine ih _ _ ?_
      have := closure_fold_measure A (A.get_transitions_from s AM.epsilon)
        (fun t ht => List.mem_of_mem_filter ht) cl rest
      rw [ConversionOperations.closureStep]
      rw [List.length_cons] at h
      omega

/-- `epsilon_closure` always succeeds with its default fuel. -/
theorem epsilon_closure_isSome (A : AM.Automaton) (states : List AM.State) :
    (ConversionOperations.epsilon_closure A states).isSome := by
  rw [ConversionOperations.epsilon_closure]
  refine closureLoop_isSome A _ _ _ ?_
  have h1 : A.transitions.countP
      (fun t => !(AM.memSt (AM.pyDedupSt states) t.target)) ≤ A.transitions.length :=
    List.countP_le_length _
  omega

theorem stEq_comm (a b : AM.State) : AM.stEq a b = AM.stEq b a := by
  rw [Bool.eq_iff_iff, stEq_iff, stEq_iff]
  exact eq_comm

theorem memSt_congr (l : List AM.State) (x y : AM.State) (h : AM.stEq x y = true) :
    AM.memSt l x = AM.memSt l y := by
  have hn : x.name = y.name := (stEq_iff x y).mp h
  simp [AM.memSt, AM.stEq, hn]

/-- A predicate that is pointwise the disjoint union of two others splits the count. -/
theorem countP_split {α} (l : List α) (p q r : α → Bool)
    (h : ∀ a ∈ l, p a = (q a || r a) ∧ (q a && r a) = false) :
    l.countP p = l.countP q + l.countP r := by
  induction l with
  | nil => simp
  | cons a rest ih =>
    rw [List.countP_cons, List.countP_cons, List.countP_cons]
    have ha := h a (List.mem_cons_self _ _)
    have hrec := ih (fun a ha' => h a (List.mem_cons_of_mem _ ha'))
    rcases hq : q a with _ | _ <;> rcases hr : r a with _ | _ <;> rw [hq, hr] at ha
    · rw [ha.1]
      simp only [Bool.or_self, Bool.false_eq_true, if_false]
      omega
    · rw [ha.1]
      simp only [Bool.or_true, Bool.false_eq_true, if_false, if_true]
      omega
    · rw [ha.1]
      simp only [Bool.true_or, Bool.false_eq_true, if_false, if_true]
      omega
    · simp at ha

/-- The BFS worklist loop of `remove_unreachable_states` returns within the
measure's fuel: queue length plus transitions whose source is not yet reached. -/
theorem bfsLoop_isSome (A : AM.Automaton) :
    ∀ (fuel : Nat) (reachable queue : List AM.State),
      queue.length + A.transitions.countP (fun t => !(AM.memSt reachable t.source)) ≤ fuel →
      (MinimizationOperations.bfsLoop A fuel reachable queue).isSome := by
  intro fuel
  induction fuel with
  | zero =>
    intro reachable queue h
    cases queue with
    | nil => rw [MinimizationOperations.bfsLoop]; rfl
    | cons s rest => simp at h
  | succ f ih =>
    intro reachable queue h
    cases queue with
    | nil => rw [MinimizationOperations.bfsLoop]; rfl
    | cons s rest =>
      rw [MinimizationOperations.bfsLoop]
      rw [List.length_cons] at h
      rcases hm : AM.memSt reachable s with _ | _
      · simp only [hm, Bool.false_eq_true, if_false]
        refine ih _ _ ?_
        have key : ∀ t : AM.Transition, (!(AM.memSt reachable t.source)) =
            ((!(AM.memSt (reachable ++ [s]) t.source)) || AM.stEq t.source s) ∧
            ((!(AM.memSt (reachable ++ [s]) t.source)) && AM.stEq t.source s) = false := by
          intro t
          have happ : AM.memSt (reachable ++ [s]) t.source =
              (AM.memSt reachable t.source || AM.stEq t.source s) := by
            rw [memSt_append]
            have h1 : AM.memSt [s] t.source = AM.stEq t.source s := by
              show (AM.stEq s t.source || false) = AM.stEq t.source s
              rw [Bool.or_false]
              exact stEq_comm s t.source
            rw [h1]
          rcases he : AM.stEq t.source s with _ | _
          · rw [happ, he, Bool.or_false, Bool.or_false, Bool.and_false]
            exact ⟨rfl, rfl⟩
          · have hb : AM.memSt reachable t.source = false := by
              rw [memSt_congr _ _ _ he]
              exact hm
            rw [happ, he, hb]
            exact ⟨rfl, rfl⟩
        have hsplit : A.transitions.countP (fun t => !(AM.memSt reachable t.source)) =
            A.transitions.countP (fun t => !(AM.memSt (reachable ++ [s]) t.source)) +
            A.transitions.countP (fun t => AM.stEq t.source s) :=
          countP_split _ _ _ _ (fun t _ => key t)
        have hp : (((A.transitions_from_any s).filter
            (fun t => !(AM.memSt (reachable ++ [s]) t.target))).map (·.target)).length ≤
            A.transitions.countP (fun t => AM.stEq t.source s) := by
          rw [List.length_map]
          refine le_trans (List.length_filter_le _ _) ?_
          rw [AM.Automaton.transitions_from_any, ← List.countP_eq_length_filter]
        rw [List.length_append]
        omega
      · simp only [hm, if_true]
        refine ih _ _ ?_
        omega

/-- `remove_unreachable_states` always succeeds with its default fuel. -/
theorem remove_unreachable_isSome (A : AM.Automaton) :
    (MinimizationOperations.remove_unreachable_states A).isSome := by
  have hmeas : A.copy.initial_states.length +
      A.copy.transitions.countP (fun t => !(AM.memSt [] t.source)) ≤
      A.copy.states.length + A.copy.transitions.length + 1 := by
    have h1 : A.copy.initial_states.length ≤ A.copy.states.length := by
      rw [AM.Automaton.initial_states]
      exact List.length_filter_le _ _
    have h2 : A.copy.transitions.countP (fun t => !(AM.memSt [] t.source)) ≤
        A.copy.transitions.length := List.countP_le_length _
    omega
  obtain ⟨reach, hr⟩ := Option.isSome_iff_exists.mp
    (bfsLoop_isSome A.copy _ [] A.copy.initial_states hmeas)
  rw [MinimizationOperations.remove_unreachable_states]
  simp only [hr]
  rfl


theorem bool_not_true {b : Bool} (h : (!b) = true) : b = false := by
  cases b
  · rfl
  · cases h

theorem ne_nil_of_isEmpty_false {α} (l : List α) (h : l.isEmpty = false) : l ≠ [] := by
  intro hn
  rw [hn] at h
  cases h

theorem removeFirstBlk_length (l : List (List AM.State)) (y : List AM.State)
    (h : y ∈ l) :
    (MinimizationOperations.removeFirstBlk l y).length + 1 = l.length := by
  induction l with
  | nil => cases h
  | cons x xs ih =>
    rw [MinimizationOperations.removeFirstBlk]
    rcases he : (x == y) with _ | _
    · have hy : y ∈ xs := by
        rcases List.mem_cons.mp h with rfl | h' 
        · rw [beq_self_eq_true] at he
          cases he
        · exact h' 
      simp only [Bool.false_eq_true, if_false, List.length_cons]
      rw [ih hy]
    · simp

theorem contains_iff_memBlk (l : List (List AM.State)) (y : List AM.State) :
    l.contains y = true ↔ y ∈ l := by
  simp

/-- `refineStep` with its lets expanded. -/
theorem refineStep_eq (X : List AM.State)
    (acc : List (List AM.State) × List (List AM.State)) (Y : List AM.State) :
    MinimizationOperations.refineStep X acc Y =
      if !(Y.filter (fun s => AM.memSt X s)).isEmpty &&
          !(Y.filter (fun s => !(AM.memSt X s))).isEmpty then
        (acc.1 ++ [Y.filter (fun s => AM.memSt X s), Y.filter (fun s => !(AM.memSt X s))],
          if acc.2.contains Y then
            MinimizationOperations.removeFirstBlk acc.2 Y ++
              [Y.filter (fun s => AM.memSt X s), Y.filter (fun s => !(AM.memSt X s))]
          else if (Y.filter (fun s => AM.memSt X s)).length ≤
              (Y.filter (fun s => !(AM.memSt X s))).length then
            acc.2 ++ [Y.filter (fun s => AM.memSt X s)]
          else acc.2 ++ [Y.filter (fun s => !(AM.memSt X s))])
      else (acc.1 ++ [Y], acc.2) := rfl

/-- Each refinement pass adds exactly as many worklist entries as partition
blocks: `|W'| + |P| + |Ys| = |W| + |P'|`. -/
theorem refine_fold_len (X : List AM.State) (Ys : List (List AM.State)) :
    ∀ (P0 W0 : List (List AM.State)),
      (Ys.foldl (MinimizationOperations.refineStep X) (P0, W0)).2.length +
        P0.length + Ys.length =
      W0.length + (Ys.foldl (MinimizationOperations.refineStep X) (P0, W0)).1.length := by
  induction Ys with
  | nil => intro P0 W0; simp
  | cons Y rest ih =>
    intro P0 W0
    rw [List.foldl_cons, refineStep_eq]
    split
    · split
      · rename_i hc
        have hYW : Y ∈ W0 := (contains_iff_memBlk _ _).mp hc
        have hrl := removeFirstBlk_length W0 Y hYW
        have h := ih (P0 ++ [Y.filter (fun s => AM.memSt X s),
            Y.filter (fun s => !(AM.memSt X s))])
          (MinimizationOperations.removeFirstBlk W0 Y ++
            [Y.filter (fun s => AM.memSt X s), Y.filter (fun s => !(AM.memSt X s))])
        simp only [List.length_append, List.length_cons, List.length_nil] at h ⊢
        omega
      · split
        · have h := ih (P0 ++ [Y.filter (fun s => AM.memSt X s),
              Y.filter (fun s => !(AM.memSt X s))])
            (W0 ++ [Y.filter (fun s => AM.memSt X s)])
          simp only [List.length_append, List.length_cons, List.length_nil] at h ⊢
          omega
        · have h := ih (P0 ++ [Y.filter (fun s => AM.memSt X s),
              Y.filter (fun s => !(AM.memSt X s))])
            (W0 ++ [Y.filter (fun s => !(AM.memSt X s))])
          simp only [List.length_append, List.length_cons, List.length_nil] at h ⊢
          omega
    · have h := ih (P0 ++ [Y]) W0
      simp only [List.length_append, List.length_cons, List.length_nil] at h ⊢
      omega

/-- Refinement preserves the total number of states in the partition. -/
theorem refine_fold_blocksLen (X : List AM.State) (Ys : List (List AM.State)) :
    ∀ (P0 W0 : List (List AM.State)),
      blocksLen (Ys.foldl (MinimizationOperations.refineStep X) (P0, W0)).1 =
        blocksLen P0 + blocksLen Ys := by
  induction Ys with
  | nil => intro P0 W0; simp [blocksLen]
  | cons Y rest ih =>
    intro P0 W0
    rw [List.foldl_cons, refineStep_eq]
    have hflt : (Y.filter (fun s => AM.memSt X s)).length +
        (Y.filter (fun s => !(AM.memSt X s))).length = Y.length := by
      simpa using (List.length_eq_length_filter_add (l := Y)
        (fun s => AM.memSt X s)).symm
    split
    · rw [ih]
      simp only [blocksLen, List.map_append, List.sum_append, List.map_cons, List.map_nil,
        List.sum_cons, List.sum_nil]
      omega
    · rw [ih]
      simp only [blocksLen, List.map_append, List.sum_append, List.map_cons, List.map_nil,
        List.sum_cons, List.sum_nil]
      omega

/-- Refinement keeps every partition block nonempty. -/
theorem refine_fold_nonempty (X : List AM.State) (Ys : List (List AM.State)) :
    ∀ (P0 W0 : List (List AM.State)),
      (∀ b ∈ P0, b ≠ []) → (∀ b ∈ Ys, b ≠ []) →
      ∀ b ∈ (Ys.foldl (MinimizationOperations.refineStep X) (P0, W0)).1, b ≠ [] := by
  induction Ys with
  | nil =>
    intro P0 W0 hP _
    simpa using hP
  | cons Y rest ih =>
    intro P0 W0 hP hYs
    rw [List.foldl_cons, refineStep_eq]
    split
    · rename_i hg
      have hgc : (Y.filter (fun s => AM.memSt X s)).isEmpty = false ∧
          (Y.filter (fun s => !(AM.memSt X s))).isEmpty = false := by
        simpa using hg
      have hg1 : (Y.filter (fun s => AM.memSt X s)) ≠ [] :=
        ne_nil_of_isEmpty_false _ hgc.1
      have hg2 : (Y.filter (fun s => !(AM.memSt X s))) ≠ [] :=
        ne_nil_of_isEmpty_false _ hgc.2
      refine ih _ _ ?_ (fun b hb => hYs b (List.mem_cons_of_mem _ hb))
      intro b hb
      rcases List.mem_append.mp hb with h1 | h2
      · exact hP b h1
      · rcases List.mem_cons.mp h2 with rfl | h3
        · exact hg1
        · rw [List.mem_singleton.mp h3]
          exact hg2
    · refine ih _ _ ?_ (fun b hb => hYs b (List.mem_cons_of_mem _ hb))
      intro b hb
      rcases List.mem_append.mp hb with h1 | h2
      · exact hP b h1
      · rw [List.mem_singleton.mp h2]
        exact hYs Y (List.mem_cons_self _ _)

theorem length_le_blocksLen (P : List (List AM.State)) (h : ∀ b ∈ P, b ≠ []) :
    P.length ≤ blocksLen P := by
  induction P with
  | nil => simp [blocksLen]
  | cons b rest ih =>
    have hb : 1 ≤ b.length := by
      have hne := h b (List.mem_cons_self _ _)
      cases b with
      | nil => cases hne rfl
      | cons x xs => simp
    have hr := ih (fun b hb => h b (List.mem_cons_of_mem _ hb))
    simp only [blocksLen, List.map_cons, List.sum_cons, List.length_cons] at hr ⊢
    omega

/-- One full pass over the alphabet preserves the refinement invariants:
blocks stay nonempty, total partition size is constant, and the worklist
grows exactly with the partition. -/
theorem symfold_props (B : AM.Automaton) (Ablk : List AM.State) (syms : List String) :
    ∀ (P W : List (List AM.State)), (∀ b ∈ P, b ≠ []) →
      (∀ b ∈ (syms.foldl (MinimizationOperations.refineBySym B Ablk) (P, W)).1, b ≠ []) ∧
      blocksLen (syms.foldl (MinimizationOperations.refineBySym B Ablk) (P, W)).1 =
        blocksLen P ∧
      (syms.foldl (MinimizationOperations.refineBySym B Ablk) (P, W)).2.length + P.length =
        W.length + (syms.foldl (MinimizationOperations.refineBySym B Ablk) (P, W)).1.length := by
  induction syms with
  | nil =>
    intro P W hP
    exact ⟨hP, rfl, rfl⟩
  | cons sym rest ih =>
    intro P W hP
    rw [List.foldl_cons]
    have hstep : MinimizationOperations.refineBySym B Ablk (P, W) sym =
        (P.foldl (MinimizationOperations.refineStep
          (MinimizationOperations.splitterX B Ablk sym)) ([], W)) := rfl
    rw [hstep]
    have hne := refine_fold_nonempty (MinimizationOperations.splitterX B Ablk sym) P [] W
      (fun b hb => (List.not_mem_nil b hb).elim) hP
    have hbl := refine_fold_blocksLen (MinimizationOperations.splitterX B Ablk sym) P [] W
    have hlen := refine_fold_len (MinimizationOperations.splitterX B Ablk sym) P [] W
    obtain ⟨h1, h2, h3⟩ := ih
      (P.foldl (MinimizationOperations.refineStep
        (MinimizationOperations.splitterX B Ablk sym)) ([], W)).1
      (P.foldl (MinimizationOperations.refineStep
        (MinimizationOperations.splitterX B Ablk sym)) ([], W)).2 hne
    simp only [Prod.mk.eta] at h1 h2 h3
    have hbl0 : blocksLen ([] : List (List AM.State)) = 0 := rfl
    rw [hbl0, Nat.zero_add] at hbl
    simp only [List.length_nil, Nat.add_zero] at hlen
    refine ⟨h1, ?_, ?_⟩
    · rw [h2]
      exact hbl
    · omega

/-- The partition refinement loop of `minimize` terminates within its fuel
whenever the worklist is not larger than the fuel allows: the measure
`|worklist| + (total states in partition − #blocks)` drops each iteration. -/
theorem partitionLoop_isSome (B : AM.Automaton) :
    ∀ (fuel : Nat) (P W : List (List AM.State)),
      (∀ b ∈ P, b ≠ []) →
      W.length + blocksLen P ≤ fuel + P.length →
      ∃ P2, MinimizationOperations.partitionLoop B fuel P W = some P2 ∧
        ∀ b ∈ P2, b ≠ [] := by
  intro fuel
  induction fuel with
  | zero =>
    intro P W hP h
    cases W with
    | nil => exact ⟨P, by rw [MinimizationOperations.partitionLoop], hP⟩
    | cons Ablk rest =>
      exfalso
      have := length_le_blocksLen P hP
      rw [List.length_cons] at h
      omega
  | succ f ih =>
    intro P W hP h
    cases W with
    | nil => exact ⟨P, by rw [MinimizationOperations.partitionLoop], hP⟩
    | cons Ablk rest =>
      rw [MinimizationOperations.partitionLoop]
      obtain ⟨hne, hbl, hlen⟩ := symfold_props B Ablk B.alphabet.symbols P rest hP
      rw [List.length_cons] at h
      exact ih _ _ hne (by omega)

/-- A fallible fold succeeds and preserves an invariant when every step
does. -/
theorem foldlM_some_inv {α β : Type} (l : List α) (f : β → α → Option β) (Q : β → Prop) :
    ∀ (init : β), Q init →
      (∀ acc a, a ∈ l → Q acc → ∃ b, f acc a = some b ∧ Q b) →
      ∃ res, l.foldlM f init = some res ∧ Q res := by
  induction l with
  | nil =>
    intro init hinit _
    exact ⟨init, rfl, hinit⟩
  | cons a rest ih =>
    intro init hinit hstep
    obtain ⟨b, hb, hQb⟩ := hstep init a (List.mem_cons_self _ _) hinit
    obtain ⟨res, hres, hQres⟩ := ih b hQb
      (fun acc x hx hQ => hstep acc x (List.mem_cons_of_mem _ hx) hQ)
    refine ⟨res, ?_, hQres⟩
    rw [List.foldlM_cons, hb]
    simpa using hres

/-- `buildMinimized` succeeds whenever every partition class is nonempty
(the source's `next(iter(...))` then never raises). -/
theorem buildMinimized_isSome (B : AM.Automaton) (part : List (List AM.State))
    (h : ∀ b ∈ part, b ≠ []) :
    (MinimizationOperations.buildMinimized B part).isSome := by
  rw [MinimizationOperations.buildMinimized]
  have hstep1 : ∀ (acc : AM.Automaton × List (List AM.State × AM.State))
      (blk : List AM.State), blk ∈ part → (∀ pr ∈ acc.2, pr.1 ≠ []) →
      ∃ b, (match blk with
          | [] => none
          | rep :: _ =>
            let nst : AM.State := ⟨rep.name, blk.any (·.is_initial), blk.any (·.is_final)⟩
            some (acc.1.add_state nst, acc.2 ++ [(blk, nst)]) :
          Option (AM.Automaton × List (List AM.State × AM.State))) = some b ∧
        ∀ pr ∈ b.2, pr.1 ≠ [] := by
    intro acc blk hblk hQa
    cases hb : blk with
    | nil => exact absurd hb (h blk hblk)
    | cons rep rest =>
      subst hb
      refine ⟨_, rfl, ?_⟩
      intro pr hpr
      rcases List.mem_append.mp hpr with h1 | h2
      · exact hQa pr h1
      · rw [List.mem_singleton.mp h2]
        exact h _ hblk
  obtain ⟨⟨m1, cmap⟩, hres, hQ⟩ := foldlM_some_inv part
    (fun (acc : AM.Automaton × List (List AM.State × AM.State)) blk =>
      match blk with
      | [] => none
      | rep :: _ =>
        let nst : AM.State := ⟨rep.name, blk.any (·.is_initial), blk.any (·.is_final)⟩
        some (acc.1.add_state nst, acc.2 ++ [(blk, nst)]))
    (fun acc => ∀ pr ∈ acc.2, pr.1 ≠ [])
    ((⟨B.name ++ "_min", B.alphabet, [], []⟩, []) :
      AM.Automaton × List (List AM.State × AM.State))
    (fun pr hpr => (List.not_mem_nil pr hpr).elim)
    hstep1
  have hstep2 : ∀ (acc : AM.Automaton) (pair : List AM.State × AM.State),
      pair ∈ cmap → True →
      ∃ b, (match pair.1 with
          | [] => none
          | rep :: _ =>
            some (B.alphabet.symbols.foldl (fun acc2 sym =>
              match (B.get_reachable_states rep sym).head? with
              | none => acc2
              | some tgt =>
                match part.find? (fun blk => AM.memSt blk tgt) with
                | none => acc2
                | some tblk =>
                  match MinimizationOperations.lookupBlk cmap tblk with
                  | none => acc2
                  | some tst => acc2.add_transition pair.2 sym tst) acc) :
          Option AM.Automaton) = some b ∧ True := by
    intro acc pair hpair _
    have hne := hQ pair hpair
    cases hp1 : pair.1 with
    | nil => exact absurd hp1 hne
    | cons rep rest =>
      exact ⟨_, rfl, trivial⟩
  obtain ⟨res2, hres2, _⟩ := foldlM_some_inv cmap
    (fun (acc : AM.Automaton) (pair : List AM.State × AM.State) =>
      match pair.1 with
      | [] => none
      | rep :: _ =>
        some (B.alphabet.symbols.foldl (fun acc2 sym =>
          match (B.get_reachable_states rep sym).head? with
          | none => acc2
          | some tgt =>
            match part.find? (fun blk => AM.memSt blk tgt) with
            | none => acc2
            | some tblk =>
              match MinimizationOperations.lookupBlk cmap tblk with
              | none => acc2
              | some tst => acc2.add_transition pair.2 sym tst) acc))
    (fun _ => True) m1 trivial hstep2
  simp only [hres]
  rw [hres2]
  rfl

theorem if_empty_block_ne (l : List AM.State) :
    ∀ b ∈ (if l.isEmpty then ([] : List (List AM.State)) else [l]), b ≠ [] := by
  intro b hb
  rcases he : l.isEmpty with _ | _
  · rw [he] at hb
    simp only [Bool.false_eq_true, if_false, List.mem_singleton] at hb
    rw [hb]
    exact ne_nil_of_isEmpty_false l he
  · rw [he] at hb
    simp at hb

theorem blocksLen_p0_le (B : AM.Automaton) :
    blocksLen ((if B.final_states.isEmpty then [] else [B.final_states]) ++
      (if (B.states.filter (fun s => !(AM.memSt B.final_states s))).isEmpty then []
       else [B.states.filter (fun s => !(AM.memSt B.final_states s))])) ≤
      2 * B.states.length := by
  have h1 : B.final_states.length ≤ B.states.length := by
    rw [AM.Automaton.final_states]
    exact List.length_filter_le _ _
  have h2 : (B.states.filter (fun s => !(AM.memSt B.final_states s))).length ≤
      B.states.length := List.length_filter_le _ _
  rcases he1 : B.final_states.isEmpty with _ | _ <;>
    rcases he2 : (B.states.filter (fun s => !(AM.memSt B.final_states s))).isEmpty with _ | _ <;>
    simp only [Bool.false_eq_true, if_false, if_true, blocksLen, List.map_append,
      List.sum_append, List.map_cons, List.map_nil, List.sum_cons, List.sum_nil,
      List.append_nil, List.nil_append] <;> omega

/-- `minimize` succeeds as soon as its two normalization steps do; the
pruning, refinement and reconstruction phases never fail. -/
theorem minimize_some_of (A a1 a2 : AM.Automaton)
    (h1 : (if DeterministicOperations.is_deterministic A then some A
      else ConversionOperations.nfa_to_dfa A) = some a1)
    (h2 : (if DeterministicOperations.is_complete a1 then some a1
      else DeterministicOperations.complete_automaton a1) = some a2) :
    (MinimizationOperations.minimize A).isSome := by
  rw [MinimizationOperations.minimize]
  simp only [h1, h2]
  obtain ⟨B, hB⟩ := Option.isSome_iff_exists.mp (remove_unreachable_isSome a2)
  simp only [hB]
  obtain ⟨part, hpart, hnepart⟩ := partitionLoop_isSome B (2 * B.states.length + 4)
    ((if B.final_states.isEmpty then [] else [B.final_states]) ++
      (if (B.states.filter (fun s => !(AM.memSt B.final_states s))).isEmpty then []
       else [B.states.filter (fun s => !(AM.memSt B.final_states s))]))
    ((if B.final_states.isEmpty then [] else [B.final_states]) ++
      (if (B.states.filter (fun s => !(AM.memSt B.final_states s))).isEmpty then []
       else [B.states.filter (fun s => !(AM.memSt B.final_states s))]))
    (fun b hb => by
      rcases List.mem_append.mp hb with hx | hx
      · exact if_empty_block_ne _ b hx
      · exact if_empty_block_ne _ b hx)
    (by have := blocksLen_p0_le B; omega)
  simp only [hpart]
  exact buildMinimized_isSome B part hnepart

/-- `complement` succeeds as soon as its two normalization steps do; the
final copy-and-flip phase is total. -/
theorem complement_some_of (A dfa1 dfa2 : AM.Automaton)
    (h1 : (if !(DeterministicOperations.is_deterministic A) then
      ConversionOperations.nfa_to_dfa A else some A.copy) = some dfa1)
    (h2 : (if !(DeterministicOperations.is_complete dfa1) then
      DeterministicOperations.complete_automaton dfa1 else some dfa1) = some dfa2) :
    (LanguageOperations.complement A).isSome := by
  rw [LanguageOperations.complement]
  simp only [h1, h2]
  rfl

/-! ## Degenerate inputs: evaluation of the pipelines -/

theorem subsetLoop_cons (A : AM.Automaton) (f : Nat) (dfa : AM.Automaton)
    (smap : List (List String × AM.State)) (key : List String) (sub : List AM.State)
    (rest : List (List String × List AM.State)) (processed : List (List String)) :
    ConversionOperations.subsetLoop A (f + 1) dfa smap ((key, sub) :: rest) processed =
      if processed.contains key then
        ConversionOperations.subsetLoop A f dfa smap rest processed
      else
        match smap.lookup key with
        | none => none
        | some cur =>
          match A.alphabet.symbols.foldlM (ConversionOperations.subsetSymStep A cur sub)
              (dfa, smap, rest) with
          | none => none
          | some (dfa2, smap2, q2) =>
            ConversionOperations.subsetLoop A f dfa2 smap2 q2 (processed ++ [key]) := rfl

/-- With an empty current subset every symbol step is a no-op (the
successor set is empty). -/
theorem subsetSym_nil_sub (A : AM.Automaton) (cur : AM.State) :
    ∀ (syms : List String)
      (st : AM.Automaton × List (List String × AM.State) ×
        List (List String × List AM.State)),
      syms.foldlM (ConversionOperations.subsetSymStep A cur []) st = some st := by
  intro syms
  induction syms with
  | nil => intro st; rfl
  | cons sym rest ih =>
    intro st
    rw [List.foldlM_cons]
    have hstep : ConversionOperations.subsetSymStep A cur [] st sym = some st := rfl
    rw [hstep]
    simpa using ih st

/-- A queued empty subset with no successors finishes the subset loop. -/
theorem subsetLoop_single_empty (A : AM.Automaton) (f : Nat) (dfa : AM.Automaton)
    (smap : List (List String × AM.State)) (key : List String) (cur : AM.State)
    (hlk : smap.lookup key = some cur) :
    ConversionOperations.subsetLoop A (f + 1) dfa smap [(key, [])] [] = some dfa := by
  rw [subsetLoop_cons, show (([] : List (List String)).contains key) = false from rfl]
  simp only [Bool.false_eq_true, if_false, hlk]
  rw [subsetSym_nil_sub]
  show ConversionOperations.subsetLoop A f dfa smap [] ([] ++ [key]) = some dfa
  rw [ConversionOperations.subsetLoop]

/-- A queued subset over an empty alphabet finishes the subset loop. -/
theorem subsetLoop_single_nosym (A : AM.Automaton) (hsym : A.alphabet.symbols = [])
    (f : Nat) (dfa : AM.Automaton) (smap : List (List String × AM.State))
    (key : List String) (sub : List AM.State) (cur : AM.State)
    (hlk : smap.lookup key = some cur) :
    ConversionOperations.subsetLoop A (f + 1) dfa smap [(key, sub)] [] = some dfa := by
  rw [subsetLoop_cons, show (([] : List (List String)).contains key) = false from rfl]
  simp only [Bool.false_eq_true, if_false, hlk, hsym]
  show ConversionOperations.subsetLoop A f dfa smap [] ([] ++ [key]) = some dfa
  rw [ConversionOperations.subsetLoop]

/-- On an automaton with no states the subset construction succeeds and
returns the single `"empty"` subset state with no transitions. -/
theorem nfa_to_dfa_no_states (A : AM.Automaton)
    (hst : A.states = []) :
    ConversionOperations.nfa_to_dfa A = some
      ⟨A.name ++ "_DFA", ⟨AM.pyDedup A.alphabet.symbols⟩,
        [(⟨"empty", true, false⟩ : AM.State)], []⟩ := by
  have hdet : DeterministicOperations.is_deterministic A = false := by
    simp [DeterministicOperations.is_deterministic, AM.Automaton.initial_states, hst]
  have hini : A.initial_states = [] := by
    rw [AM.Automaton.initial_states, hst]
    rfl
  rw [ConversionOperations.nfa_to_dfa, hdet]
  simp only [Bool.false_eq_true, if_false, hini]
  rw [show ConversionOperations.epsilon_closure A [] = some [] from rfl]
  exact subsetLoop_single_empty A (2 ^ (A.states.length + A.transitions.length) + 1)
    _ _ _ _ rfl

/-- On a nondeterministic automaton over an empty alphabet the subset
construction succeeds and returns only the initial-closure state. -/
theorem nfa_to_dfa_no_symbols (A : AM.Automaton)
    (hdet : DeterministicOperations.is_deterministic A = false)
    (hsym : A.alphabet.symbols = []) :
    ∃ cl, ConversionOperations.epsilon_closure A A.initial_states = some cl ∧
      ConversionOperations.nfa_to_dfa A = some
        ⟨A.name ++ "_DFA", ⟨[]⟩,
          [(⟨ConversionOperations.subsetName cl, true, cl.any (·.is_final)⟩ : AM.State)],
          []⟩ := by
  obtain ⟨cl, hcl⟩ := Option.isSome_iff_exists.mp (epsilon_closure_isSome A A.initial_states)
  refine ⟨cl, hcl, ?_⟩
  rw [ConversionOperations.nfa_to_dfa, hdet]
  simp only [Bool.false_eq_true, if_false, hcl, hsym]
  have hlk : List.lookup (ConversionOperations.subsetKey cl)
      [(ConversionOperations.subsetKey cl,
        (⟨ConversionOperations.subsetName cl, true, cl.any (·.is_final)⟩ : AM.State))] =
      some (⟨ConversionOperations.subsetName cl, true, cl.any (·.is_final)⟩ : AM.State) := by
    simp [List.lookup]
  exact subsetLoop_single_nosym A hsym (2 ^ (A.states.length + A.transitions.length) + 1)
    _ _ _ _ _ hlk

/-! ## Well-formedness of the degenerate conversion outputs -/

theorem pyDedup_go_mem : ∀ (l seen : List String) (x : String),
    x ∈ AM.pyDedup.go seen l → x ∈ l ∧ x ∉ seen := by
  intro l
  induction l with
  | nil =>
    intro seen x hx
    rw [AM.pyDedup.go] at hx
    exact absurd hx (List.not_mem_nil x)
  | cons a as ih =>
    intro seen x hx
    rw [AM.pyDedup.go] at hx
    rcases hc : seen.contains a with _ | _
    · rw [hc] at hx
      simp only [Bool.false_eq_true, if_false, List.mem_cons] at hx
      rcases hx with rfl | hx' 
      · have hns : x ∉ seen := by simpa using hc
        exact ⟨List.mem_cons_self _ _, hns⟩
      · obtain ⟨hmem, hns⟩ := ih (seen ++ [a]) x hx' 
        exact ⟨List.mem_cons_of_mem _ hmem, fun hs => hns (List.mem_append_left _ hs)⟩
    · rw [hc] at hx
      simp only [if_true] at hx
      obtain ⟨hmem, hns⟩ := ih seen x hx
      exact ⟨List.mem_cons_of_mem _ hmem, hns⟩

theorem pyDedup_go_nodup : ∀ (l seen : List String),
    strNodup (AM.pyDedup.go seen l) = true := by
  intro l
  induction l with
  | nil =>
    intro seen
    rw [AM.pyDedup.go]
    rfl
  | cons a as ih =>
    intro seen
    rw [AM.pyDedup.go]
    rcases hc : seen.contains a with _ | _
    · simp only [Bool.false_eq_true, if_false]
      rw [strNodup]
      have h1 : (AM.pyDedup.go (seen ++ [a]) as).contains a = false := by
        rcases hca : (AM.pyDedup.go (seen ++ [a]) as).contains a with _ | _
        · rfl
        · exfalso
          have hmem : a ∈ AM.pyDedup.go (seen ++ [a]) as := by simpa using hca
          exact (pyDedup_go_mem as _ a hmem).2
            (List.mem_append_right _ (List.mem_singleton.mpr rfl))
      rw [h1, ih]
      rfl
    · simp only [if_true]
      exact ih seen

theorem pyDedup_nodup (l : List String) : strNodup (AM.pyDedup l) = true :=
  pyDedup_go_nodup l []

theorem pyDedup_mem (l : List String) (x : String) (h : x ∈ AM.pyDedup l) : x ∈ l :=
  (pyDedup_go_mem l [] x h).1

theorem pyDedup_not_contains (l : List String) (x : String) (h : l.contains x = false) :
    (AM.pyDedup l).contains x = false := by
  rcases hc : (AM.pyDedup l).contains x with _ | _
  · rfl
  · exfalso
    have hx : x ∈ AM.pyDedup l := by simpa using hc
    have hmem : x ∈ l := pyDedup_mem l x hx
    have hcl : l.contains x = true := by simpa using hmem
    rw [hcl] at h
    cases h

/-- A one-state automaton without transitions is well-formed as soon as its
alphabet is duplicate-free and epsilon-free. -/
theorem wf_single_state (nm sn : String) (b1 b2 : Bool) (syms : List String)
    (hnd : strNodup syms = true) (heps : syms.contains AM.epsilon = false) :
    wf ⟨nm, ⟨syms⟩, [(⟨sn, b1, b2⟩ : AM.State)], []⟩ = true := by
  rw [wf]
  dsimp only
  rw [hnd, heps]
  rfl

/-- A one-initial-state automaton without transitions is deterministic. -/
theorem det_single (nm sn : String) (b : Bool) (al : AM.Alphabet) :
    DeterministicOperations.is_deterministic ⟨nm, al, [(⟨sn, true, b⟩ : AM.State)], []⟩ =
      true := by
  simp [DeterministicOperations.is_deterministic, AM.Automaton.initial_states,
    AM.Automaton.get_reachable_states, AM.Automaton.get_transitions_from]

theorem det_false_of_no_states (A : AM.Automaton) (hst : A.states = []) :
    DeterministicOperations.is_deterministic A = false := by
  simp [DeterministicOperations.is_deterministic, AM.Automaton.initial_states, hst]

/-- Well-formedness forces an automaton without states to have no
transitions (every endpoint must resolve by name). -/
theorem wf_no_states_no_transitions (A : AM.Automaton) (hwf : wf A = true)
    (hst : A.states = []) : A.transitions = [] := by
  obtain ⟨_, _, _, h4, _⟩ := wf_spec A hwf
  cases htr : A.transitions with
  | nil => rfl
  | cons t ts =>
    exfalso
    have := (h4 t (by rw [htr]; exact List.mem_cons_self _ _)).1
    rw [AM.Automaton.get_state_by_name, hst] at this
    cases this

/-- Over an empty alphabet a deterministic well-formed automaton has no
transitions: well-formedness forces every symbol to be epsilon, which
determinism forbids. -/
theorem no_symbols_det_no_transitions (A : AM.Automaton) (hwf : wf A = true)
    (hsym : A.alphabet.symbols = [])
    (hdet : DeterministicOperations.is_deterministic A = true) :
    A.transitions = [] := by
  obtain ⟨_, _, _, h4, _⟩ := wf_spec A hwf
  rw [DeterministicOperations.is_deterministic] at hdet
  simp only [Bool.and_eq_true] at hdet
  have hnoeps := hdet.1.2
  rw [Bool.not_eq_true'] at hnoeps
  cases htr : A.transitions with
  | nil => rfl
  | cons t ts =>
    exfalso
    have hsy := (h4 t (by rw [htr]; exact List.mem_cons_self _ _)).2.2
    rw [hsym] at hsy
    rcases hsy with h | h
    · exact absurd h (List.not_mem_nil _)
    · have : A.transitions.any (fun t => t.symbol == AM.epsilon) = true := by
        rw [htr]
        refine List.any_eq_true.mpr ⟨t, List.mem_cons_self _ _, ?_⟩
        exact beq_iff_eq.mpr h
      rw [this] at hnoeps
      cases hnoeps

/-- Over an empty alphabet every deterministic automaton is complete
(the per-symbol condition is vacuous). -/
theorem complete_of_no_symbols (A : AM.Automaton) (hsym : A.alphabet.symbols = [])
    (hdet : DeterministicOperations.is_deterministic A = true) :
    DeterministicOperations.is_complete A = true := by
  simp [DeterministicOperations.is_complete, hsym, hdet]

/-- The deterministic-module completion always succeeds on inputs whose
copy is deterministic (the conversion branch is skipped and both remaining
branches return a value). -/
theorem complete_automaton_isSome_det (X : AM.Automaton)
    (hdet : DeterministicOperations.is_deterministic X.copy = true) :
    (DeterministicOperations.complete_automaton X).isSome := by
  rw [DeterministicOperations.complete_automaton]
  simp only [is_det_rename, hdet, if_true]
  split
  · rfl
  · rfl

/-- C9: confirmed (under data-model well-formedness). For every degenerate
automaton — empty alphabet or no states — `complement` and `minimize`
terminate and return an automaton: every conversion, completion, pruning
and refinement step succeeds, with no failing lookup or empty-iterator
access. -/
theorem C9_degenerate_inputs_safe (A : AM.Automaton) (hwf : wf A = true)
    (hdeg : A.alphabet.symbols = [] ∨ A.states = []) :
    (LanguageOperations.complement A).isSome ∧
    (MinimizationOperations.minimize A).isSome := by
  rcases hdeg with hsym | hst
  · rcases hdet : DeterministicOperations.is_deterministic A with _ | _
    · obtain ⟨cl, _hcl, hD⟩ := nfa_to_dfa_no_symbols A hdet hsym
      have hdetD : DeterministicOperations.is_deterministic
          (⟨A.name ++ "_DFA", ⟨[]⟩,
            [(⟨ConversionOperations.subsetName cl, true, cl.any (·.is_final)⟩ : AM.State)],
            []⟩ : AM.Automaton) = true := det_single _ _ _ _
      have hcompD : DeterministicOperations.is_complete
          (⟨A.name ++ "_DFA", ⟨[]⟩,
            [(⟨ConversionOperations.subsetName cl, true, cl.any (·.is_final)⟩ : AM.State)],
            []⟩ : AM.Automaton) = true :=
        complete_of_no_symbols _ rfl hdetD
      constructor
      · exact complement_some_of A _ _
          (by rw [hdet]; simp only [Bool.not_false, if_true]; exact hD)
          (by simp only [hcompD, Bool.not_true, Bool.false_eq_true, if_false]; rfl)
      · exact minimize_some_of A _ _
          (by simp only [hdet, Bool.false_eq_true, if_false]; exact hD)
          (by simp only [hcompD, if_true]; rfl)
    · have hcopy : A.copy = A := copy_eq_self A hwf
      have hcomp : DeterministicOperations.is_complete A = true :=
        complete_of_no_symbols A hsym hdet
      constructor
      · exact complement_some_of A A A
          (by simp only [hdet, Bool.not_true, Bool.false_eq_true, if_false, hcopy])
          (by simp only [hcomp, Bool.not_true, Bool.false_eq_true, if_false])
      · exact minimize_some_of A A A
          (by simp only [hdet, if_true])
          (by simp only [hcomp, if_true])
  · have hdet : DeterministicOperations.is_deterministic A = false :=
      det_false_of_no_states A hst
    have hD := nfa_to_dfa_no_states A hst
    have hepsA : A.alphabet.symbols.contains AM.epsilon = false := by
      have hmem := (wf_spec A hwf).2.2.1
      rcases hc : A.alphabet.symbols.contains AM.epsilon with _ | _
      · rfl
      · exact absurd (by simpa using hc) hmem
    have hdetD : DeterministicOperations.is_deterministic
        (⟨A.name ++ "_DFA", ⟨AM.pyDedup A.alphabet.symbols⟩,
          [(⟨"empty", true, false⟩ : AM.State)], []⟩ : AM.Automaton) = true :=
      det_single _ _ _ _
    have hwfD : wf (⟨A.name ++ "_DFA", ⟨AM.pyDedup A.alphabet.symbols⟩,
        [(⟨"empty", true, false⟩ : AM.State)], []⟩ : AM.Automaton) = true :=
      wf_single_state _ _ _ _ _ (pyDedup_nodup _) (pyDedup_not_contains _ _ hepsA)
    have hcopyD : (⟨A.name ++ "_DFA", ⟨AM.pyDedup A.alphabet.symbols⟩,
        [(⟨"empty", true, false⟩ : AM.State)], []⟩ : AM.Automaton).copy =
        (⟨A.name ++ "_DFA", ⟨AM.pyDedup A.alphabet.symbols⟩,
          [(⟨"empty", true, false⟩ : AM.State)], []⟩ : AM.Automaton) :=
      copy_eq_self _ hwfD
    rcases hcompD : DeterministicOperations.is_complete
        (⟨A.name ++ "_DFA", ⟨AM.pyDedup A.alphabet.symbols⟩,
          [(⟨"empty", true, false⟩ : AM.State)], []⟩ : AM.Automaton) with _ | _
    · have hca : (DeterministicOperations.complete_automaton
          (⟨A.name ++ "_DFA", ⟨AM.pyDedup A.alphabet.symbols⟩,
            [(⟨"empty", true, false⟩ : AM.State)], []⟩ : AM.Automaton)).isSome :=
        complete_automaton_isSome_det _ (by rw [hcopyD]; exact hdetD)
      obtain ⟨C, hC⟩ := Option.isSome_iff_exists.mp hca
      constructor
      · exact complement_some_of A _ C
          (by rw [hdet]; simp only [Bool.not_false, if_true]; exact hD)
          (by simp only [hcompD, Bool.not_false, if_true]; exact hC)
      · exact minimize_some_of A _ C
          (by simp only [hdet, Bool.false_eq_true, if_false]; exact hD)
          (by simp only [hcompD, Bool.false_eq_true, if_false]; exact hC)
    · constructor
      · exact complement_some_of A _ _
          (by rw [hdet]; simp only [Bool.not_false, if_true]; exact hD)
          (by simp only [hcompD, Bool.not_true, Bool.false_eq_true, if_false]; rfl)
      · exact minimize_some_of A _ _
          (by simp only [hdet, Bool.false_eq_true, if_false]; exact hD)
          (by simp only [hcompD, if_true]; rfl)

/-- Witness for C9 at the concrete stateless automaton `Claims.c9A`. -/
theorem C9_degenerate_inputs_safe_witness :
    wf Claims.c9A = true ∧ (Claims.c9A.alphabet.symbols = [] ∨ Claims.c9A.states = []) ∧
    ((LanguageOperations.complement Claims.c9A).isSome ∧
     (MinimizationOperations.minimize Claims.c9A).isSome) :=
  ⟨by decide, Or.inr rfl,
    C9_degenerate_inputs_safe Claims.c9A (by decide) (Or.inr rfl)⟩
